import Mathlib

/-!
Verification of the sandboxed filesystem access layer of the desktop
backend (`packages/desktop/src-tauri/src/commands/files.rs`).

The development shallowly embeds the core of `files.rs`:

* path resolution (`resolve_sandboxed_path`, `resolve_creatable_path`),
  with filesystem canonicalization and the home-directory lookup passed
  in as explicit collaborator functions;
* the fuzzy matcher (`fuzzy_match_score`);
* the bounded breadth-first file search (`search_files`) over a pure
  directory-tree model, with the gitignore collaborator passed in as a
  function returning `Except`;
* directory listing (`list_directory`) over a pure entry-list model.

Strings are modelled at Unicode-scalar-value granularity (`List Char`),
where Rust byte indices and character indices coincide on ASCII input,
and Rust string lowercasing is modelled by its action on the ASCII range
(`asciiLowerChar`), which also models `eq_ignore_ascii_case`.
-/

namespace OpenChamber

/-! ### Error taxonomy (`enum FsCommandError`, files.rs lines 86-93) -/

inductive FsCommandError where
  | notFound
  | accessDenied
  | notDirectory
  | outsideWorkspace
  | other (detail : String)
deriving DecidableEq, Repr

/-- Model of `FsCommandError::to_list_message` (files.rs lines 96-108). -/
def FsCommandError.to_list_message : FsCommandError → String
  | .notFound => "Directory not found"
  | .accessDenied => "Access to directory denied"
  | .outsideWorkspace => "Access to directory denied"
  | .notDirectory => "Specified path is not a directory"
  | .other _ => "Failed to list directory"

/-! ### String primitives

The Rust string operations the core uses are modelled structurally on the
character list of the string, so that they evaluate by kernel reduction. -/

/-- Model of Rust `str::starts_with`. -/
def strStartsWith (s pre : String) : Bool :=
  pre.data.isPrefixOf s.data

/-- Model of Rust `str::trim`: strip whitespace from both ends. -/
def rustTrim (s : String) : String :=
  String.mk (((s.data.dropWhile Char.isWhitespace).reverse.dropWhile Char.isWhitespace).reverse)

/-- Split a character list at every occurrence of `sep`. -/
def splitOnCharAux (sep : Char) : List Char → List Char → List (List Char)
  | [], acc => [acc.reverse]
  | c :: rest, acc =>
    if c = sep then acc.reverse :: splitOnCharAux sep rest []
    else splitOnCharAux sep rest (c :: acc)

/-- Split a string at every occurrence of `sep`. -/
def splitOnChar (sep : Char) (s : String) : List String :=
  (splitOnCharAux sep s.data []).map String.mk

/-! ### Path model

A Rust `PathBuf` is modelled as an absoluteness flag plus its list of
components: `/a/b` is `⟨true, [a, b]⟩` and `a/b` is `⟨false, [a, b]⟩`. -/

structure RPath where
  absolute : Bool
  comps : List String
deriving DecidableEq, Repr

/-- Parse a raw path string into the component model.  A path is absolute
when it starts with the separator; empty components (from duplicate or
trailing separators) are dropped, matching `Path::components` iteration. -/
def parsePath (s : String) : RPath :=
  { absolute := strStartsWith s "/", comps := (splitOnChar '/' s).filter (fun c => c ≠ "") }

/-- Model of `Path::starts_with`: component-wise containment, with the
absoluteness of both paths agreeing. -/
def rpathStartsWith (p base : RPath) : Bool :=
  p.absolute == base.absolute && base.comps.isPrefixOf p.comps

/-- Model of `Path::parent`: drop the last component; `None` when there is
no component left (the filesystem root `/` and the empty path). -/
def rpathParent (p : RPath) : Option RPath :=
  match p.comps with
  | [] => none
  | _ :: _ => some { absolute := p.absolute, comps := p.comps.dropLast }

/-- Modelled from the spec: the repository's `path_utils::expand_tilde_path`
is not among the provided sources.  The spec (section 4.1) says to expand a
leading tilde, or a tilde followed by a user name, to the appropriate home
directory.  `home` is the current user's home directory and `userHome`
resolves the home directory of a named user; other inputs pass through. -/
def expand_tilde_path (home : String) (userHome : String → Option String) (s : String) : String :=
  if s = "~" then home
  else if strStartsWith s "~/" then home ++ String.mk (s.data.drop 1)
  else if strStartsWith s "~" then
    let rest := s.data.drop 1
    let user := rest.takeWhile (fun c => c ≠ '/')
    match userHome (String.mk user) with
    | some h => h ++ String.mk (rest.drop user.length)
    | none => s
  else s

/-- Model of `default_home_directory` (files.rs lines 707-709): the
home-directory collaborator may fail, in which case `/` is used. -/
def default_home_directory (home : Option RPath) : RPath :=
  home.getD { absolute := true, comps := [] }

/-- Pre-canonicalization path computed by `resolve_sandboxed_path`
(files.rs lines 569-588): trim, treat empty as the fallback root, expand a
leading tilde, and join relative inputs onto the fallback root. -/
def sandboxResolvedInput (homeStr : String) (userHome : String → Option String)
    (home : Option RPath) (path : Option String)
    (workspace_roots : List RPath) (default_root : Option RPath) : RPath :=
  let candidate_input := (path.map rustTrim).filter (fun v => v ≠ "")
  let fallback_root := (default_root.or workspace_roots.head?).getD (default_home_directory home)
  let candidate_path :=
    match candidate_input with
    | some value => parsePath (expand_tilde_path homeStr userHome value)
    | none => fallback_root
  if candidate_path.absolute then candidate_path
  else { absolute := fallback_root.absolute, comps := fallback_root.comps ++ candidate_path.comps }

/-- Model of `resolve_sandboxed_path` (files.rs lines 564-603).
`canonicalize` is the filesystem's `fs::canonicalize`, already mapped
through the `From<std::io::Error>` conversion of the source. -/
def resolve_sandboxed_path (canonicalize : RPath → Except FsCommandError RPath)
    (homeStr : String) (userHome : String → Option String) (home : Option RPath)
    (path : Option String)
    (workspace_roots : List RPath) (default_root : Option RPath) :
    Except FsCommandError RPath :=
  let resolved := sandboxResolvedInput homeStr userHome home path workspace_roots default_root
  match canonicalize resolved with
  | .error e => .error e
  | .ok canonicalized =>
    if !workspace_roots.isEmpty
        && !(workspace_roots.any (fun root => rpathStartsWith canonicalized root)) then
      .error .outsideWorkspace
    else
      .ok canonicalized

/-- Absolute (pre-canonicalization) target computed by
`resolve_creatable_path` (files.rs lines 610-624). -/
def creatableAbsoluteTarget (homeStr : String) (userHome : String → Option String)
    (home : Option RPath) (path : String)
    (workspace_roots : List RPath) (default_root : Option RPath) : RPath :=
  let candidate := parsePath (expand_tilde_path homeStr userHome path)
  let fallback_root := (default_root.or workspace_roots.head?).getD (default_home_directory home)
  if candidate.absolute then candidate
  else { absolute := fallback_root.absolute, comps := fallback_root.comps ++ candidate.comps }

/-- Model of `resolve_creatable_path` (files.rs lines 605-641): reject an
empty expansion, canonicalize only the parent of the absolute target,
check containment on that canonicalized parent, and return the absolute
target itself untouched. -/
def resolve_creatable_path (canonicalize : RPath → Except FsCommandError RPath)
    (homeStr : String) (userHome : String → Option String) (home : Option RPath)
    (path : String)
    (workspace_roots : List RPath) (default_root : Option RPath) :
    Except FsCommandError RPath :=
  if expand_tilde_path homeStr userHome path = "" then
    .error (.other "Path is required")
  else
    let absolute := creatableAbsoluteTarget homeStr userHome home path workspace_roots default_root
    match rpathParent absolute with
    | none => .error .notDirectory
    | some parent =>
      match canonicalize parent with
      | .error e => .error e
      | .ok canonical_parent =>
        if !workspace_roots.isEmpty
            && !(workspace_roots.any (fun root => rpathStartsWith canonical_parent root)) then
          .error .outsideWorkspace
        else
          .ok absolute

/-! ### Claims C1 and C2 -/

/-- C1: with a non-empty root set, `resolve_sandboxed_path` succeeds with
the canonicalized path exactly when that canonicalized path is a
descendant of (or equal to) some workspace root, and otherwise fails with
`OutsideWorkspace`.  The containment check consumes only the output of
`canonicalize`, which is universally quantified here, so a `..`- or
symlink-based escape (an input that canonicalizes outside every root) is
rejected no matter how the pre-canonicalization string looked. -/
theorem resolve_sandboxed_path_containment
    (canonicalize : RPath → Except FsCommandError RPath)
    (homeStr : String) (userHome : String → Option String) (home : Option RPath)
    (path : Option String) (workspace_roots : List RPath) (default_root : Option RPath)
    (hroots : workspace_roots ≠ []) (p : RPath)
    (hcanon : canonicalize
      (sandboxResolvedInput homeStr userHome home path workspace_roots default_root) = .ok p) :
    (resolve_sandboxed_path canonicalize homeStr userHome home path workspace_roots default_root
        = .ok p
      ↔ ∃ root ∈ workspace_roots, rpathStartsWith p root = true)
    ∧ ((¬ ∃ root ∈ workspace_roots, rpathStartsWith p root = true) →
        resolve_sandboxed_path canonicalize homeStr userHome home path workspace_roots default_root
          = .error .outsideWorkspace) := by
  simp only [resolve_sandboxed_path]
  rw [hcanon]
  by_cases hin : ∃ root ∈ workspace_roots, rpathStartsWith p root = true
  · have hany : workspace_roots.any (fun root => rpathStartsWith p root) = true := by
      rw [List.any_eq_true]
      obtain ⟨r, hr, hs⟩ := hin
      exact ⟨r, hr, hs⟩
    simp [hany, hin]
  · have hany : workspace_roots.any (fun root => rpathStartsWith p root) = false := by
      rw [Bool.eq_false_iff]
      intro hcon
      rw [List.any_eq_true] at hcon
      obtain ⟨r, hr, hs⟩ := hcon
      exact hin ⟨r, hr, hs⟩
    have hne : workspace_roots.isEmpty = false := by
      simpa [List.isEmpty_iff] using hroots
    simp [hany, hne, hin]

/-- Closed instantiation of `resolve_sandboxed_path_containment`: a
canonicalizer mapping the input into `/w/x` under the single root `/w`. -/
theorem resolve_sandboxed_path_containment_witness :
    (([⟨true, ["w"]⟩] : List RPath) ≠ []
      ∧ (fun _ : RPath => (.ok ⟨true, ["w", "x"]⟩ : Except FsCommandError RPath))
          (sandboxResolvedInput "/home/u" (fun _ => none) none (some "/w/x") [⟨true, ["w"]⟩] none)
          = .ok ⟨true, ["w", "x"]⟩)
    ∧ (resolve_sandboxed_path (fun _ => .ok ⟨true, ["w", "x"]⟩) "/home/u" (fun _ => none) none
          (some "/w/x") [⟨true, ["w"]⟩] none = .ok ⟨true, ["w", "x"]⟩
        ↔ ∃ root ∈ ([⟨true, ["w"]⟩] : List RPath), rpathStartsWith ⟨true, ["w", "x"]⟩ root = true) := by
  refine ⟨⟨by decide, rfl⟩, ?_⟩
  exact (resolve_sandboxed_path_containment (fun _ => .ok ⟨true, ["w", "x"]⟩) "/home/u"
    (fun _ => none) none (some "/w/x") [⟨true, ["w"]⟩] none (by decide) ⟨true, ["w", "x"]⟩ rfl).1

/-- C2: with a non-empty root set, `resolve_creatable_path` canonicalizes
only the parent of the target.  It succeeds, returning the absolute
non-canonicalized target, exactly when the canonicalized parent is under
some root, and fails with `OutsideWorkspace` otherwise — regardless of
what the target's own (lexical) components look like, since the decision
reads only the canonicalized parent. -/
theorem resolve_creatable_path_parent_containment
    (canonicalize : RPath → Except FsCommandError RPath)
    (homeStr : String) (userHome : String → Option String) (home : Option RPath)
    (path : String) (workspace_roots : List RPath) (default_root : Option RPath)
    (hroots : workspace_roots ≠ [])
    (hexp : expand_tilde_path homeStr userHome path ≠ "")
    (parent pp : RPath)
    (hparent : rpathParent
      (creatableAbsoluteTarget homeStr userHome home path workspace_roots default_root)
        = some parent)
    (hcanon : canonicalize parent = .ok pp) :
    (resolve_creatable_path canonicalize homeStr userHome home path workspace_roots default_root
        = .ok (creatableAbsoluteTarget homeStr userHome home path workspace_roots default_root)
      ↔ ∃ root ∈ workspace_roots, rpathStartsWith pp root = true)
    ∧ ((¬ ∃ root ∈ workspace_roots, rpathStartsWith pp root = true) →
        resolve_creatable_path canonicalize homeStr userHome home path workspace_roots default_root
          = .error .outsideWorkspace) := by
  simp only [resolve_creatable_path]
  rw [if_neg hexp, hparent]
  simp only [hcanon]
  by_cases hin : ∃ root ∈ workspace_roots, rpathStartsWith pp root = true
  · have hany : workspace_roots.any (fun root => rpathStartsWith pp root) = true := by
      rw [List.any_eq_true]
      obtain ⟨r, hr, hs⟩ := hin
      exact ⟨r, hr, hs⟩
    simp [hany, hin]
  · have hany : workspace_roots.any (fun root => rpathStartsWith pp root) = false := by
      rw [Bool.eq_false_iff]
      intro hcon
      rw [List.any_eq_true] at hcon
      obtain ⟨r, hr, hs⟩ := hcon
      exact hin ⟨r, hr, hs⟩
    have hne : workspace_roots.isEmpty = false := by
      simpa [List.isEmpty_iff] using hroots
    simp [hany, hne, hin]

/-- Closed instantiation of `resolve_creatable_path_parent_containment`:
the target `/w/evil/f` looks lexically inside the root `/w`, but its
parent `/w/evil` canonicalizes (for example through a symlink) to
`/outside`, so resolution fails with `OutsideWorkspace`. -/
theorem resolve_creatable_path_parent_containment_witness :
    (([⟨true, ["w"]⟩] : List RPath) ≠ []
      ∧ expand_tilde_path "/home/u" (fun _ => none) "/w/evil/f" ≠ ""
      ∧ rpathParent (creatableAbsoluteTarget "/home/u" (fun _ => none) none "/w/evil/f"
          [⟨true, ["w"]⟩] none) = some ⟨true, ["w", "evil"]⟩
      ∧ (fun _ : RPath => (.ok ⟨true, ["outside"]⟩ : Except FsCommandError RPath))
          ⟨true, ["w", "evil"]⟩ = .ok ⟨true, ["outside"]⟩)
    ∧ resolve_creatable_path (fun _ => .ok ⟨true, ["outside"]⟩) "/home/u" (fun _ => none) none
        "/w/evil/f" [⟨true, ["w"]⟩] none = .error .outsideWorkspace := by
  refine ⟨⟨by decide, by decide, by decide, rfl⟩, ?_⟩
  refine (resolve_creatable_path_parent_containment (fun _ => .ok ⟨true, ["outside"]⟩)
    "/home/u" (fun _ => none) none "/w/evil/f" [⟨true, ["w"]⟩] none (by decide) (by decide)
    ⟨true, ["w", "evil"]⟩ ⟨true, ["outside"]⟩ (by decide) rfl).2 ?_
  rintro ⟨r, hr, hs⟩
  simp only [List.mem_singleton] at hr
  subst hr
  exact absurd hs (by decide)

/-! ### Fuzzy matcher (`fuzzy_match_score`, files.rs lines 728-805)

Rust `str::to_lowercase` is modelled by its action on the ASCII range;
`eq_ignore_ascii_case` is modelled with the same character map. -/

/-- ASCII lowercasing of one character: map the range `A`-`Z` onto
`a`-`z` and leave everything else unchanged. -/
def asciiLowerChar (ch : Char) : Char :=
  if 'A' ≤ ch ∧ ch ≤ 'Z' then Char.ofNat (ch.toNat + 32) else ch

/-- Model of Rust string lowercasing (`str::to_lowercase`) on ASCII. -/
def asciiLower (s : String) : String :=
  String.mk (s.data.map asciiLowerChar)

theorem char_le_iff {a b : Char} : a ≤ b ↔ a.toNat ≤ b.toNat := Iff.rfl

theorem char_toNat_ofNat_valid {n : Nat} (h : n.isValidChar) : (Char.ofNat n).toNat = n := by
  rw [Char.ofNat, dif_pos h]; rfl

theorem asciiLowerChar_idem (ch : Char) : asciiLowerChar (asciiLowerChar ch) = asciiLowerChar ch := by
  unfold asciiLowerChar
  by_cases h : 'A' ≤ ch ∧ ch ≤ 'Z'
  · rw [if_pos h]
    have h1 : (65 : Nat) ≤ ch.toNat := char_le_iff.mp h.1
    have hv : (ch.toNat + 32).isValidChar := by
      have h2 : ch.toNat ≤ 90 := char_le_iff.mp h.2
      left; omega
    have ht : (Char.ofNat (ch.toNat + 32)).toNat = ch.toNat + 32 :=
      char_toNat_ofNat_valid hv
    rw [if_neg]
    intro hcon
    have h2 : (Char.ofNat (ch.toNat + 32)).toNat ≤ 90 := char_le_iff.mp hcon.2
    rw [ht] at h2
    omega
  · rw [if_neg h, if_neg h]

theorem asciiLower_idem (s : String) : asciiLower (asciiLower s) = asciiLower s := by
  unfold asciiLower
  simp only [List.map_map]
  congr 1
  exact List.map_congr_left (fun a _ => by
    simp only [Function.comp_apply, asciiLowerChar_idem])

/-- Separator characters granting a word-boundary bonus in the matcher. -/
def isBoundaryChar (ch : Char) : Bool :=
  ch = '/' || ch = '_' || ch = '-' || ch = '.' || ch = ' '

/-- Index of the first occurrence of `needle` as a contiguous sub-list of
`hay` (model of `str::find` of one string in another, at character
granularity). -/
def findSubIndex (needle : List Char) : List Char → Option Nat
  | [] => if needle = [] then some 0 else none
  | c :: rest =>
    if needle.isPrefixOf (c :: rest) then some 0
    else (findSubIndex needle rest).map (· + 1)

/-- Subsequence walk of `fuzzy_match_score` (files.rs lines 752-799):
walk the remaining query characters, tracking the score, the index of the
previous match (`-1` initially) and the consecutive-run counter. -/
def subseqWalk (c : List Char) : List Char → Int → Int → Int → Option Int
  | [], score, _, _ => some score
  | ch :: rest, score, last_index, consecutive =>
    if ch = ' ' then subseqWalk c rest score last_index consecutive
    else
      let search_start : Nat := if last_index < 0 then 0 else (last_index + 1).toNat
      match (c.drop search_start).findIdx? (fun d => d = ch) with
      | none => none
      | some relative_idx =>
        let idx := search_start + relative_idx
        let gap : Int := (idx : Int) - last_index - 1
        let consecutive' : Int := if gap = 0 then consecutive + 1 else 0
        subseqWalk c rest
          (score + 10 + max (18 - (idx : Int)) 0 - min gap 10
            + (if idx = 0 then 12
               else match c.get? (idx - 1) with
                 | some prev_char => if isBoundaryChar prev_char then 10 else 0
                 | none => 0)
            + (if consecutive' > 0 then 12 else 0))
          (idx : Int) consecutive'

/-- Model of `fuzzy_match_score` (files.rs lines 728-805).  The fast path
searches for the raw (un-lowercased) query inside the lowercased
candidate, exactly as the source's `c_str.contains(query)` does. -/
def fuzzy_match_score (query candidate : String) : Option Int :=
  if query = "" then some 0
  else
    match findSubIndex query.data (asciiLower candidate).data with
    | some idx =>
      let bonus : Int :=
        if idx = 0 then 20
        else match (asciiLower candidate).data.get? (idx - 1) with
          | some prev_char => if isBoundaryChar prev_char then 15 else 0
          | none => 0
      some (100 + bonus - ((min idx 20 : Nat) : Int) - ((asciiLower candidate).data.length : Int) / 5)
    | none =>
      match subseqWalk (asciiLower candidate).data (asciiLower query).data 0 (-1) 0 with
      | none => none
      | some s => some (s + max (24 - ((asciiLower candidate).data.length : Int) / 3) 0)

/-- Cursor before any match: `-1` with no previous match, else the index
of the previous match. -/
def prevCursor : Option Nat → Int
  | none => -1
  | some p => (p : Int)

/-- Per-character scoring walk exactly as the specification's words state
it: the `+12` consecutive-run bonus is granted only when the match is
immediately adjacent to an actual previous match. -/
def claimWalk (c : List Char) : List Char → Int → Option Nat → Option Int
  | [], score, _ => some score
  | ch :: rest, score, prev =>
    if ch = ' ' then claimWalk c rest score prev
    else
      let search_start : Nat :=
        match prev with
        | none => 0
        | some p => p + 1
      match (c.drop search_start).findIdx? (fun d => d = ch) with
      | none => none
      | some relative_idx =>
        let idx := search_start + relative_idx
        let gap : Int := (idx : Int) - prevCursor prev - 1
        claimWalk c rest
          (score + 10 + max (18 - (idx : Int)) 0 - min gap 10
            + (if idx = 0 then 12
               else match c.get? (idx - 1) with
                 | some prev_char => if isBoundaryChar prev_char then 10 else 0
                 | none => 0)
            + (match prev with
               | none => 0
               | some p => if idx = p + 1 then (12 : Int) else 0))
          (some idx)

/-- Amended scoring walk: identical to `claimWalk` except that the
consecutive-run bonus is also granted to the very first matched character
when it lands at index `0` (the adjacency test uses the initial `-1`
cursor), which is what the source computes. -/
def claimWalkAmended (c : List Char) : List Char → Int → Option Nat → Option Int
  | [], score, _ => some score
  | ch :: rest, score, prev =>
    if ch = ' ' then claimWalkAmended c rest score prev
    else
      let search_start : Nat :=
        match prev with
        | none => 0
        | some p => p + 1
      match (c.drop search_start).findIdx? (fun d => d = ch) with
      | none => none
      | some relative_idx =>
        let idx := search_start + relative_idx
        let gap : Int := (idx : Int) - prevCursor prev - 1
        claimWalkAmended c rest
          (score + 10 + max (18 - (idx : Int)) 0 - min gap 10
            + (if idx = 0 then 12
               else match c.get? (idx - 1) with
                 | some prev_char => if isBoundaryChar prev_char then 10 else 0
                 | none => 0)
            + (match prev with
               | none => if idx = 0 then (12 : Int) else 0
               | some p => if idx = p + 1 then (12 : Int) else 0))
          (some idx)

/-- Subsequence-path score as the claim states it, with the final length
bonus. -/
def claim_subseq_score (query candidate : String) : Option Int :=
  match claimWalk (asciiLower candidate).data (asciiLower query).data 0 none with
  | none => none
  | some s => some (s + max (24 - ((asciiLower candidate).data.length : Int) / 3) 0)

/-- Subsequence-path score as amended (consecutive-run bonus also at a
first match on index `0`). -/
def amended_subseq_score (query candidate : String) : Option Int :=
  match claimWalkAmended (asciiLower candidate).data (asciiLower query).data 0 none with
  | none => none
  | some s => some (s + max (24 - ((asciiLower candidate).data.length : Int) / 3) 0)

theorem consBonusEq (consecutive : Int) (hcons : 0 ≤ consecutive) (g : Int) :
    (if (if g = 0 then consecutive + 1 else 0) > (0 : Int) then (12 : Int) else 0)
      = (if g = 0 then (12 : Int) else 0) := by
  split_ifs <;> omega

theorem gapZeroNone (i : Nat) :
    (if ((i : Int) - (-1) - 1 = 0) then (12 : Int) else 0) = (if i = 0 then (12 : Int) else 0) := by
  split_ifs <;> omega

theorem gapZeroSome (p i : Nat) :
    (if (((p + 1 + i : Nat) : Int) - (p : Int) - 1 = 0) then (12 : Int) else 0)
      = (if p + 1 + i = p + 1 then (12 : Int) else 0) := by
  split_ifs <;> omega

theorem subseqWalk_eq_claimWalkAmended (c : List Char) :
    ∀ (qs : List Char) (score : Int) (prev : Option Nat) (consecutive : Int),
      0 ≤ consecutive →
      subseqWalk c qs score (prevCursor prev) consecutive
        = claimWalkAmended c qs score prev
  | [], _, prev, _, _ => by cases prev <;> rfl
  | ch :: rest, score, prev, consecutive, hcons => by
    cases prev with
    | none =>
      by_cases hsp : ch = ' '
      · simp only [subseqWalk, claimWalkAmended, prevCursor, if_pos hsp]
        exact subseqWalk_eq_claimWalkAmended c rest score none consecutive hcons
      · simp only [subseqWalk, claimWalkAmended, prevCursor, if_neg hsp]
        rw [if_pos (show (-1 : Int) < 0 by norm_num)]
        simp only [consBonusEq consecutive hcons, gapZeroNone]
        split
        · rfl
        · refine subseqWalk_eq_claimWalkAmended c rest _ (some _) _ ?_
          split <;> omega
    | some p =>
      by_cases hsp : ch = ' '
      · simp only [subseqWalk, claimWalkAmended, prevCursor, if_pos hsp]
        exact subseqWalk_eq_claimWalkAmended c rest score (some p) consecutive hcons
      · simp only [subseqWalk, claimWalkAmended, prevCursor, if_neg hsp]
        rw [if_neg (show ¬ ((p : Int) < 0) by omega),
          (show ((p : Int) + 1).toNat = p + 1 by omega)]
        simp only [consBonusEq consecutive hcons, gapZeroSome]
        split
        · rfl
        · refine subseqWalk_eq_claimWalkAmended c rest _ (some _) _ ?_
          split <;> omega

/-! ### Claims C3, C4 and C5 -/

/-- C3 counterexample: the scoring function is not fully case-insensitive.
The fast substring path matches the raw query against the lowercased
candidate, so an uppercase query misses it and falls back to the
subsequence path with a different score: `"B"` against `"b"` scores 76,
while the lowercased pair scores 120 through the fast path. -/
theorem fuzzy_match_score_case_counterexample :
    fuzzy_match_score "B" "b" ≠ fuzzy_match_score (asciiLower "B") (asciiLower "b")
      ∧ fuzzy_match_score "B" "b" = some 76
      ∧ fuzzy_match_score (asciiLower "B") (asciiLower "b") = some 120 := by
  refine ⟨?_, by decide, by decide⟩
  decide

/-- C3 amended: lowercasing the candidate never changes the result, and
the full equality of the claim holds whenever the query is already
lowercase — which is how `search_files` always calls the matcher, after
lowercasing the query. -/
theorem fuzzy_match_score_candidate_case_insensitive (query candidate : String) :
    fuzzy_match_score query candidate = fuzzy_match_score query (asciiLower candidate)
    ∧ (asciiLower query = query →
        fuzzy_match_score query candidate
          = fuzzy_match_score (asciiLower query) (asciiLower candidate)) := by
  have hmain : fuzzy_match_score query candidate
      = fuzzy_match_score query (asciiLower candidate) := by
    unfold fuzzy_match_score
    rw [asciiLower_idem]
  refine ⟨hmain, fun hq => ?_⟩
  rw [hq]
  exact hmain

/-- Closed instantiation of `fuzzy_match_score_candidate_case_insensitive`
at an already-lowercase query. -/
theorem fuzzy_match_score_candidate_case_insensitive_witness :
    asciiLower "ab" = "ab"
    ∧ fuzzy_match_score "ab" "AxB" = fuzzy_match_score "ab" (asciiLower "AxB")
    ∧ fuzzy_match_score "ab" "AxB" = fuzzy_match_score (asciiLower "ab") (asciiLower "AxB") :=
  ⟨by decide, (fuzzy_match_score_candidate_case_insensitive "ab" "AxB").1,
    (fuzzy_match_score_candidate_case_insensitive "ab" "AxB").2 (by decide)⟩

/-- Fast-path score exactly as the claim states it: `100 + boundary_bonus
- min(match_index, 20) - floor(len(candidate)/5)`, with a boundary bonus
of 20 at index 0 and of 15 after a separator character. -/
def spec_fast_score (c : List Char) (idx : Nat) : Int :=
  let boundary_bonus : Int :=
    if idx = 0 then 20
    else match c.get? (idx - 1) with
      | some prev_char => if isBoundaryChar prev_char then 15 else 0
      | none => 0
  100 + boundary_bonus - ((min idx 20 : Nat) : Int) - (c.length : Int) / 5

/-- C4: when the lowercased candidate contains the query contiguously
(first occurrence at `idx`), the matcher returns exactly the claimed
fast-path formula. -/
theorem fuzzy_match_score_substring_fast_path (query candidate : String) (idx : Nat)
    (hq : query ≠ "")
    (hsub : findSubIndex query.data (asciiLower candidate).data = some idx) :
    fuzzy_match_score query candidate = some (spec_fast_score (asciiLower candidate).data idx) := by
  unfold fuzzy_match_score spec_fast_score
  rw [if_neg hq]
  simp only [hsub]

/-- Closed instantiation of `fuzzy_match_score_substring_fast_path`:
query `"but"` inside `"x/Button.tsx"` matches at index 2 after a
separator, scoring `100 + 15 - 2 - 2 = 111`. -/
theorem fuzzy_match_score_substring_fast_path_witness :
    ("but" : String) ≠ ""
    ∧ findSubIndex ("but" : String).data (asciiLower "x/Button.tsx").data = some 2
    ∧ fuzzy_match_score "but" "x/Button.tsx"
        = some (spec_fast_score (asciiLower "x/Button.tsx").data 2)
    ∧ spec_fast_score (asciiLower "x/Button.tsx").data 2 = 111 :=
  ⟨by decide, by decide,
    fuzzy_match_score_substring_fast_path "but" "x/Button.tsx" 2 (by decide) (by decide),
    by decide⟩

/-- C5 counterexample: the claim grants the `+12` consecutive-run bonus
only when a match is immediately adjacent to an actual previous match, but
the source initializes the cursor to `-1`, so a first match at index 0
also receives it.  For query `"ab"` and candidate `"axb"` (no contiguous
substring match) the code scores 100 while the claimed formula gives 88. -/
theorem fuzzy_match_score_subsequence_counterexample :
    ("ab" : String) ≠ ""
    ∧ findSubIndex ("ab" : String).data (asciiLower "axb").data = none
    ∧ fuzzy_match_score "ab" "axb" ≠ claim_subseq_score "ab" "axb"
    ∧ fuzzy_match_score "ab" "axb" = some 100
    ∧ claim_subseq_score "ab" "axb" = some 88 := by
  refine ⟨by decide, by decide, ?_, by decide, by decide⟩
  decide

/-- C5 amended: on the subsequence path the matcher walks the non-space
query characters monotonically, fails when a character cannot be found,
and otherwise scores each match with base `+10`, positional bonus
`max(0, 18 - index)`, gap penalty `-min(gap, 10)`, `+12` at index 0 or
`+10` after a separator, and the `+12` consecutive bonus when the match is
adjacent to the previous one — with the amendment that the first matched
character also collects that bonus when it lands at index 0 — plus the
final length bonus `max(0, 24 - floor(len(candidate)/3))`. -/
theorem fuzzy_match_score_subsequence_amended (query candidate : String)
    (hq : query ≠ "")
    (hsub : findSubIndex query.data (asciiLower candidate).data = none) :
    fuzzy_match_score query candidate = amended_subseq_score query candidate := by
  unfold fuzzy_match_score amended_subseq_score
  rw [if_neg hq]
  simp only [hsub]
  rw [show (-1 : Int) = prevCursor none from rfl,
    subseqWalk_eq_claimWalkAmended (asciiLower candidate).data (asciiLower query).data 0 none 0
      (by omega)]

/-- Closed instantiation of `fuzzy_match_score_subsequence_amended` at the
counterexample input: the amended formula does give the code's score. -/
theorem fuzzy_match_score_subsequence_amended_witness :
    ("ab" : String) ≠ ""
    ∧ findSubIndex ("ab" : String).data (asciiLower "axb").data = none
    ∧ fuzzy_match_score "ab" "axb" = amended_subseq_score "ab" "axb"
    ∧ amended_subseq_score "ab" "axb" = some 100 :=
  ⟨by decide, by decide,
    fuzzy_match_score_subsequence_amended "ab" "axb" (by decide) (by decide),
    by decide⟩

/-! ### File search (`search_files`, files.rs lines 309-472)

The filesystem is modelled as a finite tree of named entries.  The
breadth-first loop of the source is embedded with an explicit fuel
argument; `search_collect` passes fuel strictly larger than the queue
measure, and `searchLoop_fuel_irrelevant` below shows the result is then
independent of the fuel, so the fueled loop coincides with the source's
unbounded `while` loop. -/

/-- A node of the filesystem tree, by unfollowed (`lstat`-style) file
type: a directory with its enumeration-ordered children, a regular file,
a symbolic link, or another file type (socket, device, ...). -/
inductive FSNode where
  | dir (entries : List (String × FSNode))
  | file
  | symlink
  | other

def DEFAULT_FILE_SEARCH_LIMIT : Nat := 60

def MAX_FILE_SEARCH_LIMIT : Nat := 400

def FILE_SEARCH_MAX_CONCURRENCY : Nat := 5

def FILE_SEARCH_EXCLUDED_DIRS : List String :=
  ["node_modules", ".git", "dist", "build", ".next", ".turbo", ".cache", "coverage", "tmp", "logs"]

/-- Model of `str::eq_ignore_ascii_case`. -/
def eqIgnoreAsciiCase (a b : String) : Bool :=
  asciiLower a == asciiLower b

/-- Model of `clamp_search_limit` (files.rs lines 711-714). -/
def clamp_search_limit (value : Option Nat) : Nat :=
  min (max (value.getD DEFAULT_FILE_SEARCH_LIMIT) 1) MAX_FILE_SEARCH_LIMIT

/-- Model of `should_skip_directory` (files.rs lines 716-723). -/
def should_skip_directory (name : String) (include_hidden : Bool) : Bool :=
  if !include_hidden && strStartsWith name "." then true
  else FILE_SEARCH_EXCLUDED_DIRS.any (fun d => eqIgnoreAsciiCase d name)

/-- Model of the `FileSearchHit` DTO (files.rs lines 69-76). -/
structure FileSearchHit where
  name : String
  path : String
  relative_path : String
  extension : Option String
deriving DecidableEq, Repr

/-- Model of `ScoredFileHit` (files.rs lines 304-307). -/
structure ScoredFileHit where
  hit : FileSearchHit
  score : Int
deriving DecidableEq, Repr

/-- Model of the `SearchFilesResponse` DTO (files.rs lines 78-84). -/
structure SearchFilesResponse where
  root : String
  count : Nat
  files : List FileSearchHit
deriving DecidableEq, Repr

/-- String form of an absolute path given by components (the model's
`normalize_path` on Unix). -/
def absPathString (comps : List String) : String :=
  "/" ++ String.intercalate "/" comps

/-- Model of `relative_path` (files.rs lines 811-816): strip the root,
falling back to the target itself when it is not under the root. -/
def relative_path (root target : List String) : String :=
  if root.isPrefixOf target then String.intercalate "/" (target.drop root.length)
  else absPathString target

/-- Model of `Path::extension` on a file name: the portion after the last
dot, unless the name has no dot or only a leading one. -/
def extensionOf (name : String) : Option String :=
  match name.data.reverse.findIdx? (fun c => c = '.') with
  | none => none
  | some r =>
    let idx := name.data.length - 1 - r
    if idx = 0 then none else some (String.mk (name.data.drop (idx + 1)))

/-- Traversal state of the search loop: the BFS queue (each entry keeps the
node the directory entry named, which is what `read_dir` on the stored
path enumerates), the visited set, and the collected candidates. -/
structure SearchState where
  queue : List (List String × FSNode)
  visited : List (List String)
  candidates : List ScoredFileHit

/-- Per-call parameters of the search traversal.  `check_ignore` is the
version-control ignore collaborator (`git check-ignore` behind
`spawn_blocking`): given the directory and the child names it returns the
ignored subset, or an error. -/
structure SearchCtx where
  rootComps : List String
  normalized_query : String
  match_all : Bool
  include_hidden : Bool
  respect_gitignore : Bool
  collect_limit : Nat
  check_ignore : List String → List String → Except String (List String)

/-- Per-entry body of the traversal (files.rs lines 390-444), including
the early `break` of the entry loop once `collect_limit` candidates have
been collected. -/
def processEntries (ctx : SearchCtx) (dirPath : List String) (ignored : List String) :
    List (String × FSNode) → SearchState → SearchState
  | [], st => st
  | (name, node) :: rest, st =>
    if name = "" || (!ctx.include_hidden && strStartsWith name ".") then
      processEntries ctx dirPath ignored rest st
    else if ctx.respect_gitignore && ignored.contains name then
      processEntries ctx dirPath ignored rest st
    else
      match node with
      | FSNode.dir es =>
        if should_skip_directory name ctx.include_hidden then
          processEntries ctx dirPath ignored rest st
        else
          if (dirPath ++ [name]) ∈ st.visited then
            processEntries ctx dirPath ignored rest st
          else
            processEntries ctx dirPath ignored rest
              { st with
                visited := (dirPath ++ [name]) :: st.visited,
                queue :=
                  if st.candidates.length < ctx.collect_limit then
                    st.queue ++ [(dirPath ++ [name], FSNode.dir es)]
                  else st.queue }
      | FSNode.file =>
        let rel := relative_path ctx.rootComps (dirPath ++ [name])
        let hit : FileSearchHit :=
          { name := name,
            path := absPathString (dirPath ++ [name]),
            relative_path := rel,
            extension := (extensionOf name).map asciiLower }
        let st' :=
          if ctx.match_all then
            { st with candidates := st.candidates ++ [⟨hit, 0⟩] }
          else
            match fuzzy_match_score ctx.normalized_query rel with
            | some score => { st with candidates := st.candidates ++ [⟨hit, score⟩] }
            | none => st
        if ctx.collect_limit ≤ st'.candidates.length then st'
        else processEntries ctx dirPath ignored rest st'
      | _ => processEntries ctx dirPath ignored rest st

/-- One popped directory (files.rs lines 345-388): read its entries,
resolve the ignored-name set fail-open through the collaborator, then run
the entry loop.  A node that is not a directory makes `read_dir` fail and
is skipped. -/
def processDir (ctx : SearchCtx) (entry : List String × FSNode) (st : SearchState) : SearchState :=
  match entry.2 with
  | FSNode.dir es =>
    let names := es.map (fun e => e.1)
    let ignored : List String :=
      if ctx.respect_gitignore then
        if names.isEmpty then []
        else
          match ctx.check_ignore entry.1 names with
          | .ok l => l
          | .error _ => []
      else []
    processEntries ctx entry.1 ignored es st
  | _ => st

/-- One round of the loop (files.rs lines 344-445): pull up to
`FILE_SEARCH_MAX_CONCURRENCY` directories off the queue. -/
def processRound (ctx : SearchCtx) : Nat → SearchState → SearchState
  | 0, st => st
  | k + 1, st =>
    match st.queue with
    | [] => st
    | d :: rest => processRound ctx k (processDir ctx d { st with queue := rest })

/-- The `while` loop (files.rs line 343): keep running rounds while the
queue is non-empty and fewer than `collect_limit` candidates have been
collected.  `fuel` bounds the number of rounds; `search_collect` passes
enough fuel for the bound never to bite. -/
def searchLoop (ctx : SearchCtx) : Nat → SearchState → SearchState
  | 0, st => st
  | fuel + 1, st =>
    if st.queue.isEmpty || ctx.collect_limit ≤ st.candidates.length then st
    else searchLoop ctx fuel (processRound ctx FILE_SEARCH_MAX_CONCURRENCY st)

mutual

/-- Number of nodes of a filesystem tree. -/
def nodeSize : FSNode → Nat
  | .dir es => 1 + entriesSize es
  | .file => 1
  | .symlink => 1
  | .other => 1

/-- Number of nodes of a list of entries. -/
def entriesSize : List (String × FSNode) → Nat
  | [] => 0
  | e :: rest => nodeSize e.2 + entriesSize rest

end

/-- Total size of the nodes still queued; every round that pops at least
one directory strictly decreases it. -/
def queueMeasure (q : List (List String × FSNode)) : Nat :=
  (q.map (fun e => nodeSize e.2)).sum

/-- Search context built from the raw command inputs exactly as
`search_files` does (files.rs lines 323-334). -/
def searchCtxOf (rootComps : List String) (query : Option String)
    (max_results : Option Nat) (include_hidden respect_gitignore : Option Bool)
    (check_ignore : List String → List String → Except String (List String)) : SearchCtx :=
  let limit := clamp_search_limit max_results
  let normalized_query := asciiLower (rustTrim (query.getD ""))
  let match_all := normalized_query.isEmpty
  { rootComps := rootComps,
    normalized_query := normalized_query,
    match_all := match_all,
    include_hidden := include_hidden.getD false,
    respect_gitignore := respect_gitignore.getD true,
    collect_limit := if match_all then limit else max (limit * 3) 200,
    check_ignore := check_ignore }

/-- The traversal of `search_files` (files.rs lines 336-446): start from
the resolved root (queued and marked visited) and run the loop. -/
def search_collect (fs : FSNode) (rootComps : List String) (query : Option String)
    (max_results : Option Nat) (include_hidden respect_gitignore : Option Bool)
    (check_ignore : List String → List String → Except String (List String)) : SearchState :=
  searchLoop (searchCtxOf rootComps query max_results include_hidden respect_gitignore check_ignore)
    (nodeSize fs + 1)
    { queue := [(rootComps, fs)], visited := [rootComps], candidates := [] }

/-- Three-way comparison on integers with Rust `Ord` semantics. -/
def intCmp (a b : Int) : Ordering :=
  if a < b then .lt else if b < a then .gt else .eq

/-- Three-way comparison on naturals with Rust `Ord` semantics. -/
def natCmp (a b : Nat) : Ordering :=
  if a < b then .lt else if b < a then .gt else .eq

/-- Lexicographic comparison of character lists by scalar value, which on
UTF-8 strings agrees with Rust's byte-wise `Ord` for `String`. -/
def charListCmp : List Char → List Char → Ordering
  | [], [] => .eq
  | [], _ :: _ => .lt
  | _ :: _, [] => .gt
  | x :: xs, y :: ys =>
    match natCmp x.toNat y.toNat with
    | .eq => charListCmp xs ys
    | o => o

/-- The comparator of the candidate sort (files.rs lines 450-458): score
descending, then relative-path length ascending, then lexicographic. -/
def cmpScoredFileHit (a b : ScoredFileHit) : Ordering :=
  match intCmp b.score a.score with
  | .eq =>
    match natCmp a.hit.relative_path.length b.hit.relative_path.length with
    | .eq => charListCmp a.hit.relative_path.data b.hit.relative_path.data
    | o => o
  | o => o

/-- Boolean order used to model the stable `sort_by` of the source via
`List.mergeSort` (a stable sort agreeing with the comparator). -/
def hitLE (a b : ScoredFileHit) : Bool :=
  match cmpScoredFileHit a b with
  | .gt => false
  | _ => true

/-- Model of `search_files` (files.rs lines 309-472) after root
resolution: collect candidates breadth-first, sort them unless in
match-all mode, truncate to the limit and wrap up the response. -/
def search_files (fs : FSNode) (rootComps : List String) (query : Option String)
    (max_results : Option Nat) (include_hidden respect_gitignore : Option Bool)
    (check_ignore : List String → List String → Except String (List String)) :
    SearchFilesResponse :=
  let ctx := searchCtxOf rootComps query max_results include_hidden respect_gitignore check_ignore
  let limit := clamp_search_limit max_results
  let candidates :=
    (search_collect fs rootComps query max_results include_hidden respect_gitignore
      check_ignore).candidates
  let ranked := if ctx.match_all then candidates else candidates.mergeSort hitLE
  let files := (ranked.take limit).map (fun scored => scored.hit)
  { root := absPathString rootComps, count := files.length, files := files }

/-! ### Claim C8 -/

/-- C8: the effective search limit is the default 60 when no input is
given, and otherwise the input clamped into `[1, 400]`; in particular 0
clamps to 1 and 10000 clamps to 400. -/
theorem clamp_search_limit_spec :
    (∀ n : Nat, clamp_search_limit (some n) = if n < 1 then 1 else if 400 < n then 400 else n)
    ∧ clamp_search_limit none = 60
    ∧ clamp_search_limit (some 0) = 1
    ∧ clamp_search_limit (some 10000) = 400 := by
  refine ⟨fun n => ?_, rfl, rfl, rfl⟩
  unfold clamp_search_limit DEFAULT_FILE_SEARCH_LIMIT MAX_FILE_SEARCH_LIMIT
  simp only [Option.getD_some]
  split_ifs <;> omega

/-! ### Fuel irrelevance of the search loop -/

theorem nodeSize_pos (n : FSNode) : 1 ≤ nodeSize n := by
  cases n <;> simp [nodeSize]

theorem queueMeasure_nil : queueMeasure [] = 0 := rfl

theorem queueMeasure_cons (d : List String × FSNode) (rest : List (List String × FSNode)) :
    queueMeasure (d :: rest) = nodeSize d.2 + queueMeasure rest := by
  simp [queueMeasure]

theorem queueMeasure_append (q r : List (List String × FSNode)) :
    queueMeasure (q ++ r) = queueMeasure q + queueMeasure r := by
  simp [queueMeasure]

theorem processEntries_measure (ctx : SearchCtx) (dirPath : List String) (ignored : List String) :
    ∀ (es : List (String × FSNode)) (st : SearchState),
      queueMeasure (processEntries ctx dirPath ignored es st).queue
        ≤ queueMeasure st.queue + entriesSize es
  | [], st => by simp [processEntries]
  | (name, node) :: rest, st => by
    have hsz : entriesSize ((name, node) :: rest) = nodeSize node + entriesSize rest := rfl
    cases node with
    | dir es₂ =>
      rw [processEntries, hsz]
      repeat' split
      all_goals
        first
          | exact le_trans (processEntries_measure ctx dirPath ignored rest _)
              (by (try simp only [queueMeasure_append, queueMeasure_cons, queueMeasure_nil])
                  (try dsimp only)
                  have := nodeSize_pos (FSNode.dir es₂)
                  omega)
          | omega
    | file =>
      rw [processEntries, hsz]
      (try dsimp only)
      repeat' split
      all_goals
        first
          | exact le_trans (processEntries_measure ctx dirPath ignored rest _)
              (by (try dsimp only); omega)
          | (dsimp only; omega)
          | omega
    | symlink =>
      rw [processEntries, hsz]
      repeat' split
      all_goals
        first
          | (intro _ heq; exact FSNode.noConfusion heq)
          | (intro heq; exact FSNode.noConfusion heq)
          | (refine le_trans (processEntries_measure ctx dirPath ignored rest _) ?_
             omega)
    | other =>
      rw [processEntries, hsz]
      repeat' split
      all_goals
        first
          | (intro _ heq; exact FSNode.noConfusion heq)
          | (intro heq; exact FSNode.noConfusion heq)
          | (refine le_trans (processEntries_measure ctx dirPath ignored rest _) ?_
             omega)

theorem processDir_measure (ctx : SearchCtx) (d : List String × FSNode) (st : SearchState) :
    queueMeasure (processDir ctx d st).queue + 1 ≤ queueMeasure st.queue + nodeSize d.2 := by
  obtain ⟨p, node⟩ := d
  cases node with
  | dir es =>
    simp only [processDir]
    have h := processEntries_measure ctx p
      (if ctx.respect_gitignore then
        if (es.map (fun e => e.1)).isEmpty then []
        else
          match ctx.check_ignore p (es.map (fun e => e.1)) with
          | .ok l => l
          | .error _ => []
       else []) es st
    have hsz : nodeSize (FSNode.dir es) = 1 + entriesSize es := rfl
    omega
  | file => simp only [processDir]; have := nodeSize_pos FSNode.file; omega
  | symlink => simp only [processDir]; have := nodeSize_pos FSNode.symlink; omega
  | other => simp only [processDir]; have := nodeSize_pos FSNode.other; omega

theorem processRound_measure_le (ctx : SearchCtx) :
    ∀ (k : Nat) (st : SearchState),
      queueMeasure (processRound ctx k st).queue ≤ queueMeasure st.queue
  | 0, st => le_refl _
  | k + 1, st => by
    rw [processRound]
    cases hq : st.queue with
    | nil => dsimp only; rw [hq]
    | cons d rest =>
      dsimp only
      have h2 := processRound_measure_le ctx k (processDir ctx d { st with queue := rest })
      have h := processDir_measure ctx d { st with queue := rest }
      rw [queueMeasure_cons]
      dsimp only at h ⊢
      omega

theorem processRound_measure_strict (ctx : SearchCtx) (k : Nat) (st : SearchState)
    (hne : st.queue ≠ []) :
    queueMeasure (processRound ctx (k + 1) st).queue < queueMeasure st.queue := by
  rw [processRound]
  cases hq : st.queue with
  | nil => exact absurd hq hne
  | cons d rest =>
    dsimp only
    have h2 := processRound_measure_le ctx k (processDir ctx d { st with queue := rest })
    have h := processDir_measure ctx d { st with queue := rest }
    have hp := nodeSize_pos d.2
    rw [queueMeasure_cons]
    dsimp only at h ⊢
    omega

/-- The fueled loop computes the same state for any fuel strictly above
the queue measure, so the choice of fuel in `search_collect` is
immaterial: the model agrees with the source's unbounded `while` loop. -/
theorem searchLoop_fuel_irrelevant (ctx : SearchCtx) :
    ∀ (f g : Nat) (st : SearchState),
      queueMeasure st.queue < f → queueMeasure st.queue < g →
      searchLoop ctx f st = searchLoop ctx g st
  | 0, _, _, hf, _ => absurd hf (by omega)
  | _ + 1, 0, _, _, hg => absurd hg (by omega)
  | f + 1, g + 1, st, hf, hg => by
    rw [searchLoop, searchLoop]
    split
    · rfl
    · rename_i hcond
      have hne : st.queue ≠ [] := by
        intro hq
        exact hcond (by simp [hq])
      have hstep : queueMeasure (processRound ctx FILE_SEARCH_MAX_CONCURRENCY st).queue
          < queueMeasure st.queue := by
        have h5 : FILE_SEARCH_MAX_CONCURRENCY = 4 + 1 := rfl
        rw [h5]
        exact processRound_measure_strict ctx 4 st hne
      exact searchLoop_fuel_irrelevant ctx f g _ (by omega) (by omega)

/-! ### Properties of the ranking comparator -/

theorem intCmp_eq_lt {a b : Int} : intCmp a b = .lt ↔ a < b := by
  unfold intCmp; split_ifs <;> simp_all

theorem intCmp_eq_gt {a b : Int} : intCmp a b = .gt ↔ b < a := by
  unfold intCmp; split_ifs <;> simp_all <;> omega

theorem intCmp_eq_eq {a b : Int} : intCmp a b = .eq ↔ a = b := by
  unfold intCmp; split_ifs <;> simp_all <;> omega

theorem natCmp_eq_lt {a b : Nat} : natCmp a b = .lt ↔ a < b := by
  unfold natCmp; split_ifs <;> simp_all

theorem natCmp_eq_gt {a b : Nat} : natCmp a b = .gt ↔ b < a := by
  unfold natCmp; split_ifs <;> simp_all <;> omega

theorem natCmp_eq_eq {a b : Nat} : natCmp a b = .eq ↔ a = b := by
  unfold natCmp; split_ifs <;> simp_all <;> omega

theorem charListCmp_total : ∀ (xs ys : List Char),
    charListCmp xs ys ≠ .gt ∨ charListCmp ys xs ≠ .gt
  | [], [] => by simp [charListCmp]
  | [], _ :: _ => by simp [charListCmp]
  | _ :: _, [] => by simp [charListCmp]
  | x :: xs, y :: ys => by
    rcases h : natCmp x.toNat y.toNat with _ | _ | _
    · left
      simp [charListCmp, h]
    · have hyx : natCmp y.toNat x.toNat = .eq := by
        rw [natCmp_eq_eq] at h ⊢
        omega
      rcases charListCmp_total xs ys with ht | ht
      · left; simpa [charListCmp, h] using ht
      · right; simpa [charListCmp, hyx] using ht
    · right
      have hyx : natCmp y.toNat x.toNat = .lt := by
        rw [natCmp_eq_gt] at h
        rw [natCmp_eq_lt]
        omega
      simp [charListCmp, hyx]

theorem charListCmp_trans : ∀ (xs ys zs : List Char),
    charListCmp xs ys ≠ .gt → charListCmp ys zs ≠ .gt → charListCmp xs zs ≠ .gt
  | [], ys, zs => by
    intro _ _
    cases zs <;> simp [charListCmp]
  | _ :: _, [], _ => by
    intro h1 _
    exact absurd rfl h1
  | _ :: _, _ :: _, [] => by
    intro _ h2
    exact absurd rfl h2
  | x :: xs, y :: ys, z :: zs => by
    intro h1 h2
    have h1' : natCmp x.toNat y.toNat ≠ .gt := by
      intro hc
      rw [charListCmp, hc] at h1
      exact h1 rfl
    have h2' : natCmp y.toNat z.toNat ≠ .gt := by
      intro hc
      rw [charListCmp, hc] at h2
      exact h2 rfl
    simp only [ne_eq, natCmp_eq_gt, not_lt] at h1' h2'
    by_cases hxz : x.toNat < z.toNat
    · rw [charListCmp, natCmp_eq_lt.mpr hxz]
      simp
    · have hxe : x.toNat = y.toNat ∧ y.toNat = z.toNat := by omega
      have he1 : natCmp x.toNat y.toNat = .eq := natCmp_eq_eq.mpr hxe.1
      have he2 : natCmp y.toNat z.toNat = .eq := natCmp_eq_eq.mpr hxe.2
      have he3 : natCmp x.toNat z.toNat = .eq := natCmp_eq_eq.mpr (hxe.1.trans hxe.2)
      rw [charListCmp, he1] at h1
      rw [charListCmp, he2] at h2
      rw [charListCmp, he3]
      exact charListCmp_trans xs ys zs h1 h2

/-- The ranking relation exactly as the claim words it: score strictly
descending, ties broken by shorter relative path, then by lexicographic
order (equal strings allowed). -/
def hitRel (a b : ScoredFileHit) : Prop :=
  b.score < a.score ∨ (a.score = b.score ∧
    (a.hit.relative_path.length < b.hit.relative_path.length ∨
      (a.hit.relative_path.length = b.hit.relative_path.length ∧
        charListCmp a.hit.relative_path.data b.hit.relative_path.data ≠ .gt)))

theorem cmp_ne_gt_iff_hitRel (a b : ScoredFileHit) :
    cmpScoredFileHit a b ≠ .gt ↔ hitRel a b := by
  unfold cmpScoredFileHit hitRel
  rcases h1 : intCmp b.score a.score with _ | _ | _
  · rw [intCmp_eq_lt] at h1
    simp [h1]
  · rw [intCmp_eq_eq] at h1
    rcases h2 : natCmp a.hit.relative_path.length b.hit.relative_path.length with _ | _ | _
    · rw [natCmp_eq_lt] at h2
      simp [h1, h2]
    · rw [natCmp_eq_eq] at h2
      constructor
      · intro h3
        exact Or.inr ⟨h1.symm, Or.inr ⟨h2, h3⟩⟩
      · rintro (hlt | ⟨-, hlt | ⟨-, h3⟩⟩)
        · omega
        · omega
        · exact h3
    · rw [natCmp_eq_gt] at h2
      constructor
      · intro h3
        exact absurd rfl h3
      · rintro (hlt | ⟨-, hlt | ⟨heq, -⟩⟩) <;> omega
  · rw [intCmp_eq_gt] at h1
    constructor
    · intro h3
      exact absurd rfl h3
    · rintro (hlt | ⟨heq, -⟩) <;> omega

theorem hitLE_iff {a b : ScoredFileHit} : hitLE a b = true ↔ cmpScoredFileHit a b ≠ .gt := by
  unfold hitLE
  rcases cmpScoredFileHit a b <;> simp

theorem hitLE_iff_rel {a b : ScoredFileHit} : hitLE a b = true ↔ hitRel a b :=
  hitLE_iff.trans (cmp_ne_gt_iff_hitRel a b)

theorem hitRel_trans {a b c : ScoredFileHit} (h1 : hitRel a b) (h2 : hitRel b c) : hitRel a c := by
  unfold hitRel at h1 h2 ⊢
  rcases h1 with h1 | ⟨e1, h1⟩
  · rcases h2 with h2 | ⟨e2, h2⟩
    · left; omega
    · left; omega
  · rcases h2 with h2 | ⟨e2, h2⟩
    · left; omega
    · refine Or.inr ⟨e1.trans e2, ?_⟩
      rcases h1 with h1 | ⟨l1, h1⟩
      · rcases h2 with h2 | ⟨l2, h2⟩
        · left; omega
        · left; omega
      · rcases h2 with h2 | ⟨l2, h2⟩
        · left; omega
        · exact Or.inr ⟨l1.trans l2, charListCmp_trans _ _ _ h1 h2⟩

theorem hitLE_trans : ∀ (a b c : ScoredFileHit),
    hitLE a b = true → hitLE b c = true → hitLE a c = true := by
  intro a b c h1 h2
  exact hitLE_iff_rel.mpr (hitRel_trans (hitLE_iff_rel.mp h1) (hitLE_iff_rel.mp h2))

theorem hitLE_total : ∀ (a b : ScoredFileHit), (hitLE a b || hitLE b a) = true := by
  intro a b
  rw [Bool.or_eq_true, hitLE_iff_rel, hitLE_iff_rel]
  unfold hitRel
  rcases lt_trichotomy a.score b.score with h | h | h
  · right; left; omega
  · rcases lt_trichotomy a.hit.relative_path.length b.hit.relative_path.length with hl | hl | hl
    · left; right; exact ⟨h, Or.inl hl⟩
    · rcases charListCmp_total a.hit.relative_path.data b.hit.relative_path.data with hc | hc
      · left; right; exact ⟨h, Or.inr ⟨hl, hc⟩⟩
      · right; right; exact ⟨h.symm, Or.inr ⟨hl.symm, hc⟩⟩
    · right; right; exact ⟨h.symm, Or.inl hl⟩
  · left; left; omega

/-! ### Claim C6 -/

/-- C6: the response's `count` equals `files.length`; with an empty
trimmed query the files are the collected candidates in BFS traversal
order, truncated to the limit and never sorted; with a non-empty query the
files are a stable sort of the candidates — a permutation, pairwise
ordered by score descending with ties broken by shorter relative path and
then lexicographic order, in which comparator-equal candidates keep their
collection order (every comparator-equal sublist of the candidates is
still a sublist of the sorted list) — truncated to the limit. -/
theorem search_files_ranking (fs : FSNode) (rootComps : List String) (query : Option String)
    (max_results : Option Nat) (include_hidden respect_gitignore : Option Bool)
    (check_ignore : List String → List String → Except String (List String)) :
    (search_files fs rootComps query max_results include_hidden respect_gitignore check_ignore).count
      = (search_files fs rootComps query max_results include_hidden respect_gitignore
          check_ignore).files.length
    ∧ (asciiLower (rustTrim (query.getD "")) = "" →
        (search_files fs rootComps query max_results include_hidden respect_gitignore
            check_ignore).files
          = ((search_collect fs rootComps query max_results include_hidden respect_gitignore
                check_ignore).candidates.take (clamp_search_limit max_results)).map
              (fun scored => scored.hit))
    ∧ (asciiLower (rustTrim (query.getD "")) ≠ "" →
        ∃ L : List ScoredFileHit,
          L.Perm (search_collect fs rootComps query max_results include_hidden respect_gitignore
            check_ignore).candidates
          ∧ L.Pairwise hitRel
          ∧ (∀ sub : List ScoredFileHit,
              sub.Sublist (search_collect fs rootComps query max_results include_hidden
                respect_gitignore check_ignore).candidates →
              sub.Pairwise (fun a b => cmpScoredFileHit a b = .eq) →
              sub.Sublist L)
          ∧ (search_files fs rootComps query max_results include_hidden respect_gitignore
              check_ignore).files
            = (L.take (clamp_search_limit max_results)).map (fun scored => scored.hit)) := by
  refine ⟨rfl, fun h => ?_, fun h => ?_⟩
  · have hma : (searchCtxOf rootComps query max_results include_hidden respect_gitignore
        check_ignore).match_all = true := by
      simp [searchCtxOf, h]
      decide
    simp [search_files, hma]
  · have hma : (searchCtxOf rootComps query max_results include_hidden respect_gitignore
        check_ignore).match_all = false := by
      simp only [searchCtxOf]
      rw [Bool.eq_false_iff]
      intro hc
      exact h ((String.isEmpty_iff _).mp hc)
    refine ⟨((search_collect fs rootComps query max_results include_hidden respect_gitignore
        check_ignore).candidates.mergeSort hitLE), List.mergeSort_perm _ _, ?_, ?_, ?_⟩
    · exact List.Pairwise.imp (fun hab => hitLE_iff_rel.mp hab)
        (List.sorted_mergeSort hitLE_trans hitLE_total _)
    · intro sub hsub hpair
      refine List.sublist_mergeSort hitLE_trans hitLE_total ?_ hsub
      exact hpair.imp (fun he => hitLE_iff.mpr (fun hc => Ordering.noConfusion (he.symm.trans hc)))
    · simp [search_files, hma]

/-- Closed instantiation of `search_files_ranking` at a one-file tree, in
match-all mode (query absent) and in ranking mode (query `"a"`). -/
theorem search_files_ranking_witness :
    (asciiLower (rustTrim ((none : Option String).getD "")) = ""
      ∧ (search_files (FSNode.dir [("a", FSNode.file)]) ["r"] none none none (some false)
            (fun _ _ => .ok [])).files
          = ((search_collect (FSNode.dir [("a", FSNode.file)]) ["r"] none none none (some false)
                (fun _ _ => .ok [])).candidates.take (clamp_search_limit none)).map
              (fun scored => scored.hit))
    ∧ (asciiLower (rustTrim ((some "a" : Option String).getD "")) ≠ ""
      ∧ ∃ L : List ScoredFileHit,
          L.Perm (search_collect (FSNode.dir [("a", FSNode.file)]) ["r"] (some "a") none none
            (some false) (fun _ _ => .ok [])).candidates
          ∧ L.Pairwise hitRel
          ∧ (∀ sub : List ScoredFileHit,
              sub.Sublist (search_collect (FSNode.dir [("a", FSNode.file)]) ["r"] (some "a") none
                none (some false) (fun _ _ => .ok [])).candidates →
              sub.Pairwise (fun a b => cmpScoredFileHit a b = .eq) →
              sub.Sublist L)
          ∧ (search_files (FSNode.dir [("a", FSNode.file)]) ["r"] (some "a") none none (some false)
              (fun _ _ => .ok [])).files
            = (L.take (clamp_search_limit none)).map (fun scored => scored.hit)) :=
  ⟨⟨by decide, (search_files_ranking (FSNode.dir [("a", FSNode.file)]) ["r"] none none none
      (some false) (fun _ _ => .ok [])).2.1 (by decide)⟩,
   ⟨by decide, (search_files_ranking (FSNode.dir [("a", FSNode.file)]) ["r"] (some "a") none none
      (some false) (fun _ _ => .ok [])).2.2 (by decide)⟩⟩

/-! ### Traversal invariants (claims C7 and C10) -/

/-- `ReachesNode fs rel n` says that following the entry names `rel` down
from the tree `fs` arrives at the node `n` (an actual directory entry of
the tree, at the unfollowed file type recorded there). -/
inductive ReachesNode : FSNode → List String → FSNode → Prop where
  | refl (n : FSNode) : ReachesNode n [] n
  | step {es : List (String × FSNode)} {name : String} {child m : FSNode} {comps : List String} :
      (name, child) ∈ es → ReachesNode child comps m →
      ReachesNode (FSNode.dir es) (name :: comps) m

theorem ReachesNode.snoc {fs : FSNode} {rel : List String} {es : List (String × FSNode)}
    {name : String} {child : FSNode}
    (h : ReachesNode fs rel (FSNode.dir es)) (hmem : (name, child) ∈ es) :
    ReachesNode fs (rel ++ [name]) child := by
  have aux : ∀ {fs₀ rel₀ m}, ReachesNode fs₀ rel₀ m →
      m = FSNode.dir es → ReachesNode fs₀ (rel₀ ++ [name]) child := by
    intro fs₀ rel₀ m hr
    induction hr with
    | refl n =>
      intro hm
      subst hm
      exact .step hmem (.refl _)
    | step hm _ ih =>
      intro hme
      exact .step hm (ih hme)
  exact aux h rfl

/-- The case-insensitive membership test of the static exclusion list that
`should_skip_directory` applies. -/
def isExcludedAny (name : String) : Bool :=
  FILE_SEARCH_EXCLUDED_DIRS.any (fun d => eqIgnoreAsciiCase d name)

theorem not_excluded_of_not_skip {name : String} {inc : Bool}
    (h : should_skip_directory name inc = false) : isExcludedAny name = false := by
  unfold should_skip_directory at h
  unfold isExcludedAny
  split at h
  · exact absurd h (by simp)
  · exact h

theorem not_mem_of_not_excludedAny {x : String} (h : isExcludedAny x = false) :
    x ∉ FILE_SEARCH_EXCLUDED_DIRS := by
  intro hmem
  unfold isExcludedAny at h
  rw [Bool.eq_false_iff] at h
  apply h
  rw [List.any_eq_true]
  refine ⟨x, hmem, ?_⟩
  simp [eqIgnoreAsciiCase]

theorem isPrefixOf_append_self (root rel : List String) :
    root.isPrefixOf (root ++ rel) = true := by
  induction root with
  | nil => simp [List.isPrefixOf]
  | cons a as ih => simp [List.isPrefixOf, ih]

theorem relative_path_append (root rel : List String) :
    relative_path root (root ++ rel) = String.intercalate "/" rel := by
  unfold relative_path
  rw [if_pos (isPrefixOf_append_self root rel), List.drop_left]

/-- Invariant on one queued entry: its path extends the root by
exclusion-free components, the queued node is the actual tree node there,
and (except for the initially queued root) the node is a directory. -/
def QueueEntryInv (fs : FSNode) (root : List String) (pn : List String × FSNode) : Prop :=
  ∃ rel, pn.1 = root ++ rel ∧ ReachesNode fs rel pn.2
    ∧ (∀ x ∈ rel, isExcludedAny x = false)
    ∧ (rel = [] ∨ ∃ es, pn.2 = FSNode.dir es)

/-- Invariant on one visited path: the root itself, or the root extended
by non-empty exclusion-free components. -/
def VisitedInv (root : List String) (p : List String) : Prop :=
  p = root ∨ ∃ rel, p = root ++ rel ∧ rel ≠ [] ∧ (∀ x ∈ rel, isExcludedAny x = false)

/-- Invariant on one collected candidate: its relative path is the
forward-slash join of tree components reaching a regular-file node, and no
ancestor component is an excluded directory name. -/
def CandInv (fs : FSNode) (root : List String) (sc : ScoredFileHit) : Prop :=
  ∃ rel name, sc.hit.relative_path = String.intercalate "/" (rel ++ [name])
    ∧ sc.hit.name = name
    ∧ sc.hit.path = absPathString (root ++ rel ++ [name])
    ∧ ReachesNode fs (rel ++ [name]) FSNode.file
    ∧ (∀ x ∈ rel, isExcludedAny x = false)

/-- Conjunction of the three invariants over a full search state. -/
def StateInv (fs : FSNode) (root : List String) (st : SearchState) : Prop :=
  (∀ pn ∈ st.queue, QueueEntryInv fs root pn)
    ∧ (∀ p ∈ st.visited, VisitedInv root p)
    ∧ (∀ sc ∈ st.candidates, CandInv fs root sc)

theorem processEntries_inv (ctx : SearchCtx) (fs : FSNode) (relD : List String)
    (ignored : List String) (es0 : List (String × FSNode))
    (hreach : ReachesNode fs relD (FSNode.dir es0))
    (hrelD : ∀ x ∈ relD, isExcludedAny x = false) :
    ∀ (es : List (String × FSNode)) (st : SearchState),
      (∀ e ∈ es, e ∈ es0) →
      StateInv fs ctx.rootComps st →
      StateInv fs ctx.rootComps (processEntries ctx (ctx.rootComps ++ relD) ignored es st)
  | [], st => fun _ hst => hst
  | (name, node) :: rest, st => by
    intro hsub hst
    have hsubTail : ∀ e ∈ rest, e ∈ es0 := fun e he => hsub e (List.mem_cons_of_mem _ he)
    cases node with
    | dir es₂ =>
      rw [processEntries]
      split
      · exact processEntries_inv ctx fs relD ignored es0 hreach hrelD rest st hsubTail hst
      · split
        · exact processEntries_inv ctx fs relD ignored es0 hreach hrelD rest st hsubTail hst
        · split
          · exact processEntries_inv ctx fs relD ignored es0 hreach hrelD rest st hsubTail hst
          · rename_i hskip
            split
            · exact processEntries_inv ctx fs relD ignored es0 hreach hrelD rest st hsubTail hst
            · refine processEntries_inv ctx fs relD ignored es0 hreach hrelD rest _ hsubTail ?_
              have hskip' : should_skip_directory name ctx.include_hidden = false :=
                (Bool.not_eq_true _) ▸ hskip
              have hnameok : isExcludedAny name = false := not_excluded_of_not_skip hskip'
              have hexts : ∀ x ∈ relD ++ [name], isExcludedAny x = false := by
                intro x hx
                rcases List.mem_append.mp hx with hx | hx
                · exact hrelD x hx
                · rw [List.mem_singleton] at hx
                  subst hx
                  exact hnameok
              obtain ⟨hq, hv, hc⟩ := hst
              refine ⟨?_, ?_, hc⟩
              · intro pn hpn
                dsimp only at hpn
                split at hpn
                · rcases List.mem_append.mp hpn with hold | hnew
                  · exact hq pn hold
                  · rw [List.mem_singleton] at hnew
                    subst hnew
                    exact ⟨relD ++ [name], List.append_assoc _ _ _,
                      hreach.snoc (hsub _ (List.mem_cons_self _ _)), hexts,
                      Or.inr ⟨es₂, rfl⟩⟩
                · exact hq pn hpn
              · intro p hp
                rcases List.mem_cons.mp hp with rfl | hp
                · exact Or.inr ⟨relD ++ [name], List.append_assoc _ _ _, by simp, hexts⟩
                · exact hv p hp
    | file =>
      rw [processEntries]
      split
      · exact processEntries_inv ctx fs relD ignored es0 hreach hrelD rest st hsubTail hst
      · split
        · exact processEntries_inv ctx fs relD ignored es0 hreach hrelD rest st hsubTail hst
        · dsimp only
          have hmem_f : (name, FSNode.file) ∈ es0 := hsub _ (List.mem_cons_self _ _)
          have hnewc : ∀ (sc : Int), CandInv fs ctx.rootComps
              ⟨{ name := name,
                 path := absPathString ((ctx.rootComps ++ relD) ++ [name]),
                 relative_path := relative_path ctx.rootComps ((ctx.rootComps ++ relD) ++ [name]),
                 extension := (extensionOf name).map asciiLower }, sc⟩ := by
            intro sc
            refine ⟨relD, name, ?_, rfl, rfl, hreach.snoc hmem_f, hrelD⟩
            show relative_path ctx.rootComps ((ctx.rootComps ++ relD) ++ [name]) = _
            rw [List.append_assoc, relative_path_append]
          have hstep : ∀ (sc : Int), StateInv fs ctx.rootComps
              { st with candidates := st.candidates ++
                  [⟨{ name := name,
                      path := absPathString ((ctx.rootComps ++ relD) ++ [name]),
                      relative_path :=
                        relative_path ctx.rootComps ((ctx.rootComps ++ relD) ++ [name]),
                      extension := (extensionOf name).map asciiLower }, sc⟩] } := by
            intro sc
            obtain ⟨hq, hv, hc⟩ := hst
            refine ⟨hq, hv, ?_⟩
            intro x hx
            rcases List.mem_append.mp hx with hx | hx
            · exact hc x hx
            · rw [List.mem_singleton] at hx
              subst hx
              exact hnewc sc
          repeat' split
          all_goals
            first
              | exact hst
              | exact hstep _
              | exact processEntries_inv ctx fs relD ignored es0 hreach hrelD rest _ hsubTail
                  (hstep _)
              | exact processEntries_inv ctx fs relD ignored es0 hreach hrelD rest st hsubTail hst
    | symlink =>
      rw [processEntries]
      repeat' split
      all_goals
        first
          | (intro _ heq; exact FSNode.noConfusion heq)
          | (intro heq; exact FSNode.noConfusion heq)
          | exact processEntries_inv ctx fs relD ignored es0 hreach hrelD rest st hsubTail hst
    | other =>
      rw [processEntries]
      repeat' split
      all_goals
        first
          | (intro _ heq; exact FSNode.noConfusion heq)
          | (intro heq; exact FSNode.noConfusion heq)
          | exact processEntries_inv ctx fs relD ignored es0 hreach hrelD rest st hsubTail hst

theorem processDir_inv (ctx : SearchCtx) (fs : FSNode) (d : List String × FSNode)
    (st : SearchState) (hd : QueueEntryInv fs ctx.rootComps d)
    (hst : StateInv fs ctx.rootComps st) :
    StateInv fs ctx.rootComps (processDir ctx d st) := by
  obtain ⟨p, node⟩ := d
  cases node with
  | dir es =>
    obtain ⟨rel, hp, hreach, hexcl, -⟩ := hd
    dsimp only at hp hreach
    subst hp
    simp only [processDir]
    exact processEntries_inv ctx fs rel _ es hreach hexcl es st (fun e he => he) hst
  | file => exact hst
  | symlink => exact hst
  | other => exact hst

theorem processRound_inv (ctx : SearchCtx) (fs : FSNode) :
    ∀ (k : Nat) (st : SearchState),
      StateInv fs ctx.rootComps st →
      StateInv fs ctx.rootComps (processRound ctx k st)
  | 0, st => fun hst => hst
  | k + 1, st => by
    intro hst
    rw [processRound]
    cases hq : st.queue with
    | nil => exact hst
    | cons d rest =>
      obtain ⟨hqi, hv, hc⟩ := hst
      have hd : QueueEntryInv fs ctx.rootComps d := hqi d (hq ▸ List.mem_cons_self _ _)
      have hst' : StateInv fs ctx.rootComps { st with queue := rest } :=
        ⟨fun pn hpn => hqi pn (hq ▸ List.mem_cons_of_mem _ hpn), hv, hc⟩
      exact processRound_inv ctx fs k _ (processDir_inv ctx fs d _ hd hst')

theorem searchLoop_inv (ctx : SearchCtx) (fs : FSNode) :
    ∀ (fuel : Nat) (st : SearchState),
      StateInv fs ctx.rootComps st →
      StateInv fs ctx.rootComps (searchLoop ctx fuel st)
  | 0, st => fun hst => hst
  | fuel + 1, st => by
    intro hst
    rw [searchLoop]
    split
    · exact hst
    · exact searchLoop_inv ctx fs fuel _
        (processRound_inv ctx fs FILE_SEARCH_MAX_CONCURRENCY st hst)

/-- The collected final state of any search satisfies the traversal
invariants. -/
theorem search_collect_inv (fs : FSNode) (rootComps : List String) (query : Option String)
    (max_results : Option Nat) (include_hidden respect_gitignore : Option Bool)
    (check_ignore : List String → List String → Except String (List String)) :
    StateInv fs rootComps
      (search_collect fs rootComps query max_results include_hidden respect_gitignore
        check_ignore) := by
  unfold search_collect
  have hroot : (searchCtxOf rootComps query max_results include_hidden respect_gitignore
      check_ignore).rootComps = rootComps := rfl
  rw [← hroot]
  apply searchLoop_inv
  rw [hroot]
  refine ⟨?_, ?_, ?_⟩
  · intro pn hpn
    rw [List.mem_singleton] at hpn
    subst hpn
    exact ⟨[], by simp, .refl fs, by simp, Or.inl rfl⟩
  · intro p hp
    rw [List.mem_singleton] at hp
    subst hp
    exact Or.inl rfl
  · intro sc hsc
    exact absurd hsc (List.not_mem_nil sc)

theorem processEntries_queue_new (ctx : SearchCtx) (dirPath : List String)
    (ignored : List String) :
    ∀ (es : List (String × FSNode)) (st : SearchState) (pn : List String × FSNode),
      pn ∈ (processEntries ctx dirPath ignored es st).queue →
      pn ∈ st.queue
        ∨ ∃ name es₂, (name, FSNode.dir es₂) ∈ es ∧ pn = (dirPath ++ [name], FSNode.dir es₂)
  | [], st, pn => fun h => Or.inl h
  | (name, node) :: rest, st, pn => by
    intro hpn
    have wk : ∀ (st₀ : SearchState),
        (pn ∈ st₀.queue
          ∨ ∃ nm es₃, (nm, FSNode.dir es₃) ∈ rest ∧ pn = (dirPath ++ [nm], FSNode.dir es₃)) →
        (pn ∈ st₀.queue
          ∨ ∃ nm es₃, (nm, FSNode.dir es₃) ∈ (name, node) :: rest
              ∧ pn = (dirPath ++ [nm], FSNode.dir es₃)) := by
      rintro st₀ (h | ⟨nm, es₃, hmem, rfl⟩)
      · exact Or.inl h
      · exact Or.inr ⟨nm, es₃, List.mem_cons_of_mem _ hmem, rfl⟩
    cases node with
    | dir es₂ =>
      rw [processEntries] at hpn
      split at hpn
      · exact wk st (processEntries_queue_new ctx dirPath ignored rest st pn hpn)
      · split at hpn
        · exact wk st (processEntries_queue_new ctx dirPath ignored rest st pn hpn)
        · split at hpn
          · exact wk st (processEntries_queue_new ctx dirPath ignored rest st pn hpn)
          · split at hpn
            · exact wk st (processEntries_queue_new ctx dirPath ignored rest st pn hpn)
            · rcases processEntries_queue_new ctx dirPath ignored rest _ pn hpn with
                hin | ⟨nm, es₃, hmem, he⟩
              · dsimp only at hin
                split at hin
                · rcases List.mem_append.mp hin with hold | hnew
                  · exact Or.inl hold
                  · rw [List.mem_singleton] at hnew
                    exact Or.inr ⟨name, es₂, List.mem_cons_self _ _, hnew⟩
                · exact Or.inl hin
              · exact Or.inr ⟨nm, es₃, List.mem_cons_of_mem _ hmem, he⟩
    | file =>
      rw [processEntries] at hpn
      split at hpn
      · exact wk st (processEntries_queue_new ctx dirPath ignored rest st pn hpn)
      · split at hpn
        · exact wk st (processEntries_queue_new ctx dirPath ignored rest st pn hpn)
        · dsimp only at hpn
          repeat' split at hpn
          all_goals
            first
              | (intro _ heq; exact FSNode.noConfusion heq)
              | (intro heq; exact FSNode.noConfusion heq)
              | exact Or.inl hpn
              | exact (processEntries_queue_new ctx dirPath ignored rest _ pn hpn).elim
                  (fun hin => Or.inl hin)
                  (fun hex => hex.elim (fun nm hex₂ => hex₂.elim (fun es₃ hprop =>
                    Or.inr ⟨nm, es₃, List.mem_cons_of_mem _ hprop.1, hprop.2⟩)))
    | symlink =>
      rw [processEntries] at hpn
      repeat' split at hpn
      all_goals
        first
          | (intro _ heq; exact FSNode.noConfusion heq)
          | (intro heq; exact FSNode.noConfusion heq)
          | exact wk st (processEntries_queue_new ctx dirPath ignored rest st pn hpn)
    | other =>
      rw [processEntries] at hpn
      repeat' split at hpn
      all_goals
        first
          | (intro _ heq; exact FSNode.noConfusion heq)
          | (intro heq; exact FSNode.noConfusion heq)
          | exact wk st (processEntries_queue_new ctx dirPath ignored rest st pn hpn)

theorem processEntries_cand_new (ctx : SearchCtx) (dirPath : List String)
    (ignored : List String) :
    ∀ (es : List (String × FSNode)) (st : SearchState) (sc : ScoredFileHit),
      sc ∈ (processEntries ctx dirPath ignored es st).candidates →
      sc ∈ st.candidates
        ∨ ∃ name, (name, FSNode.file) ∈ es ∧ sc.hit.name = name
            ∧ sc.hit.path = absPathString (dirPath ++ [name])
  | [], st, sc => fun h => Or.inl h
  | (name, node) :: rest, st, sc => by
    intro hsc
    have wk : ∀ (st₀ : SearchState),
        (sc ∈ st₀.candidates
          ∨ ∃ nm, (nm, FSNode.file) ∈ rest ∧ sc.hit.name = nm
              ∧ sc.hit.path = absPathString (dirPath ++ [nm])) →
        (sc ∈ st₀.candidates
          ∨ ∃ nm, (nm, FSNode.file) ∈ (name, node) :: rest ∧ sc.hit.name = nm
              ∧ sc.hit.path = absPathString (dirPath ++ [nm])) := by
      rintro st₀ (h | ⟨nm, hmem, h1, h2⟩)
      · exact Or.inl h
      · exact Or.inr ⟨nm, List.mem_cons_of_mem _ hmem, h1, h2⟩
    cases node with
    | dir es₂ =>
      rw [processEntries] at hsc
      split at hsc
      · exact wk st (processEntries_cand_new ctx dirPath ignored rest st sc hsc)
      · split at hsc
        · exact wk st (processEntries_cand_new ctx dirPath ignored rest st sc hsc)
        · split at hsc
          · exact wk st (processEntries_cand_new ctx dirPath ignored rest st sc hsc)
          · split at hsc
            · exact wk st (processEntries_cand_new ctx dirPath ignored rest st sc hsc)
            · rcases processEntries_cand_new ctx dirPath ignored rest _ sc hsc with
                hin | ⟨nm, hmem, h1, h2⟩
              · exact Or.inl hin
              · exact Or.inr ⟨nm, List.mem_cons_of_mem _ hmem, h1, h2⟩
    | file =>
      rw [processEntries] at hsc
      split at hsc
      · exact wk st (processEntries_cand_new ctx dirPath ignored rest st sc hsc)
      · split at hsc
        · exact wk st (processEntries_cand_new ctx dirPath ignored rest st sc hsc)
        · dsimp only at hsc
          have hmemcase : ∀ (sk : Int),
              sc ∈ st.candidates ++
                  [⟨{ name := name,
                      path := absPathString (dirPath ++ [name]),
                      relative_path := relative_path ctx.rootComps (dirPath ++ [name]),
                      extension := (extensionOf name).map asciiLower }, sk⟩] →
              sc ∈ st.candidates
                ∨ ∃ nm, (nm, FSNode.file) ∈ (name, FSNode.file) :: rest ∧ sc.hit.name = nm
                    ∧ sc.hit.path = absPathString (dirPath ++ [nm]) := by
            intro sk hx
            rcases List.mem_append.mp hx with hold | hone
            · exact Or.inl hold
            · rw [List.mem_singleton] at hone
              subst hone
              exact Or.inr ⟨name, List.mem_cons_self _ _, rfl, rfl⟩
          repeat' split at hsc
          all_goals
            first
              | (intro _ heq; exact FSNode.noConfusion heq)
              | (intro heq; exact FSNode.noConfusion heq)
              | exact hmemcase _ hsc
              | exact Or.inl hsc
              | exact (processEntries_cand_new ctx dirPath ignored rest _ sc hsc).elim
                  (fun hin => hmemcase _ hin)
                  (fun hex => hex.elim (fun nm hprop =>
                    Or.inr ⟨nm, List.mem_cons_of_mem _ hprop.1, hprop.2.1, hprop.2.2⟩))
              | exact (processEntries_cand_new ctx dirPath ignored rest _ sc hsc).elim
                  (fun hin => Or.inl hin)
                  (fun hex => hex.elim (fun nm hprop =>
                    Or.inr ⟨nm, List.mem_cons_of_mem _ hprop.1, hprop.2.1, hprop.2.2⟩))
    | symlink =>
      rw [processEntries] at hsc
      repeat' split at hsc
      all_goals
        first
          | (intro _ heq; exact FSNode.noConfusion heq)
          | (intro heq; exact FSNode.noConfusion heq)
          | exact wk st (processEntries_cand_new ctx dirPath ignored rest st sc hsc)
    | other =>
      rw [processEntries] at hsc
      repeat' split at hsc
      all_goals
        first
          | (intro _ heq; exact FSNode.noConfusion heq)
          | (intro heq; exact FSNode.noConfusion heq)
          | exact wk st (processEntries_cand_new ctx dirPath ignored rest st sc hsc)

/-! ### Claims C7 and C10 -/

/-- C7: every returned hit decomposes along the actual tree entries — its
relative path is the forward-slash join of the entry names of a regular
file reachable in the tree (`ReachesNode` pins the components to the
traversed directory entries) — and none of those ancestor components is an
excluded directory name.  Moreover every path the traversal marks visited
beyond the root — a superset of every directory ever enqueued for descent —
extends the root by components outside the static exclusion list (the skip
test is even case-insensitive, so exact members of the list are always
rejected), for any `includeHidden` and `respectGitignore` flags. -/
theorem search_files_excluded_dirs (fs : FSNode) (rootComps : List String)
    (query : Option String) (max_results : Option Nat)
    (include_hidden respect_gitignore : Option Bool)
    (check_ignore : List String → List String → Except String (List String)) :
    (∀ sh ∈ (search_files fs rootComps query max_results include_hidden respect_gitignore
        check_ignore).files,
      ∃ comps name, sh.relative_path = String.intercalate "/" (comps ++ [name])
        ∧ ReachesNode fs (comps ++ [name]) FSNode.file
        ∧ ∀ x ∈ comps, x ∉ FILE_SEARCH_EXCLUDED_DIRS)
    ∧ (∀ p ∈ (search_collect fs rootComps query max_results include_hidden respect_gitignore
        check_ignore).visited,
      p = rootComps ∨ ∃ comps, p = rootComps ++ comps ∧ comps ≠ []
        ∧ ∀ x ∈ comps, x ∉ FILE_SEARCH_EXCLUDED_DIRS) := by
  obtain ⟨hq, hv, hc⟩ := search_collect_inv fs rootComps query max_results include_hidden
    respect_gitignore check_ignore
  constructor
  · intro sh hsh
    have hmem : ∃ sc ∈ (search_collect fs rootComps query max_results include_hidden
        respect_gitignore check_ignore).candidates, sc.hit = sh := by
      simp only [search_files] at hsh
      rcases List.mem_map.mp hsh with ⟨sc, hmem, he⟩
      have htake := List.mem_of_mem_take hmem
      refine ⟨sc, ?_, he⟩
      split at htake
      · exact htake
      · exact List.mem_mergeSort.mp htake
    obtain ⟨sc, hmemc, rfl⟩ := hmem
    obtain ⟨rel, name, hrel, -, -, hreach, hex⟩ := hc sc hmemc
    exact ⟨rel, name, hrel, hreach, fun x hx => not_mem_of_not_excludedAny (hex x hx)⟩
  · intro p hp
    rcases hv p hp with h | ⟨rel, hpe, hne, hex⟩
    · exact Or.inl h
    · exact Or.inr ⟨rel, hpe, hne, fun x hx => not_mem_of_not_excludedAny (hex x hx)⟩

/-- Closed instantiation of `search_files_excluded_dirs` on the tree
`a/b`: the returned hit `a/b` has only non-excluded ancestors, and the
visited directory `r/a` extends the root by non-excluded components. -/
theorem search_files_excluded_dirs_witness :
    (({ name := "b", path := "/r/a/b", relative_path := "a/b", extension := none }
          : FileSearchHit) ∈
        (search_files (FSNode.dir [("a", FSNode.dir [("b", FSNode.file)])]) ["r"] none none none
          (some false) (fun _ _ => .ok [])).files
      ∧ ∃ comps name,
          ({ name := "b", path := "/r/a/b", relative_path := "a/b", extension := none }
            : FileSearchHit).relative_path = String.intercalate "/" (comps ++ [name])
          ∧ ReachesNode (FSNode.dir [("a", FSNode.dir [("b", FSNode.file)])]) (comps ++ [name])
              FSNode.file
          ∧ ∀ x ∈ comps, x ∉ FILE_SEARCH_EXCLUDED_DIRS)
    ∧ ((["r", "a"] : List String) ∈
        (search_collect (FSNode.dir [("a", FSNode.dir [("b", FSNode.file)])]) ["r"] none none none
          (some false) (fun _ _ => .ok [])).visited
      ∧ ((["r", "a"] : List String) = ["r"]
          ∨ ∃ comps, (["r", "a"] : List String) = ["r"] ++ comps ∧ comps ≠ []
              ∧ ∀ x ∈ comps, x ∉ FILE_SEARCH_EXCLUDED_DIRS)) :=
  ⟨⟨by decide,
    (search_files_excluded_dirs (FSNode.dir [("a", FSNode.dir [("b", FSNode.file)])]) ["r"] none
        none none (some false) (fun _ _ => .ok [])).1 _ (by decide)⟩,
   ⟨by decide,
    (search_files_excluded_dirs (FSNode.dir [("a", FSNode.dir [("b", FSNode.file)])]) ["r"] none
        none none (some false) (fun _ _ => .ok [])).2 ["r", "a"] (by decide)⟩⟩

/-- C10: the traversal never follows symbolic links.  Every returned hit
corresponds to a tree entry whose unfollowed file type is a regular file;
the entry loop enqueues a new queue element only for an entry whose
unfollowed type is a directory, and records a new candidate only for an
entry whose unfollowed type is a regular file — so a symlink (to anything)
is never descended into and never appears in the results. -/
theorem search_files_unfollowed_types (fs : FSNode) (rootComps : List String)
    (query : Option String) (max_results : Option Nat)
    (include_hidden respect_gitignore : Option Bool)
    (check_ignore : List String → List String → Except String (List String)) :
    (∀ sh ∈ (search_files fs rootComps query max_results include_hidden respect_gitignore
        check_ignore).files,
      ∃ rel name, sh.relative_path = String.intercalate "/" (rel ++ [name])
        ∧ ReachesNode fs (rel ++ [name]) FSNode.file)
    ∧ (∀ (ctx : SearchCtx) (dirPath ignored : List String) (es : List (String × FSNode))
        (st : SearchState) (pn : List String × FSNode),
        pn ∈ (processEntries ctx dirPath ignored es st).queue →
        pn ∈ st.queue
          ∨ ∃ name es₂, (name, FSNode.dir es₂) ∈ es ∧ pn = (dirPath ++ [name], FSNode.dir es₂))
    ∧ (∀ (ctx : SearchCtx) (dirPath ignored : List String) (es : List (String × FSNode))
        (st : SearchState) (sc : ScoredFileHit),
        sc ∈ (processEntries ctx dirPath ignored es st).candidates →
        sc ∈ st.candidates
          ∨ ∃ name, (name, FSNode.file) ∈ es ∧ sc.hit.name = name
              ∧ sc.hit.path = absPathString (dirPath ++ [name])) := by
  refine ⟨?_, fun ctx dirPath ignored es st pn =>
      processEntries_queue_new ctx dirPath ignored es st pn,
    fun ctx dirPath ignored es st sc =>
      processEntries_cand_new ctx dirPath ignored es st sc⟩
  obtain ⟨hq, hv, hc⟩ := search_collect_inv fs rootComps query max_results include_hidden
    respect_gitignore check_ignore
  intro sh hsh
  have hmem : ∃ sc ∈ (search_collect fs rootComps query max_results include_hidden
      respect_gitignore check_ignore).candidates, sc.hit = sh := by
    simp only [search_files] at hsh
    rcases List.mem_map.mp hsh with ⟨sc, hmem, he⟩
    have htake := List.mem_of_mem_take hmem
    refine ⟨sc, ?_, he⟩
    split at htake
    · exact htake
    · exact List.mem_mergeSort.mp htake
  obtain ⟨sc, hmemc, rfl⟩ := hmem
  obtain ⟨rel, name, hrel, -, -, hreach, -⟩ := hc sc hmemc
  exact ⟨rel, name, hrel, hreach⟩

/-- Closed instantiation of `search_files_unfollowed_types`: a tree with a
symlink and a file returns only the file, only a directory entry is newly
enqueued by the entry loop, and only a file entry becomes a candidate. -/
theorem search_files_unfollowed_types_witness :
    (({ name := "f", path := "/r/f", relative_path := "f", extension := none }
          : FileSearchHit) ∈
        (search_files (FSNode.dir [("s", FSNode.symlink), ("f", FSNode.file)]) ["r"] none none
          none (some false) (fun _ _ => .ok [])).files
      ∧ ∃ rel name,
          ({ name := "f", path := "/r/f", relative_path := "f", extension := none }
            : FileSearchHit).relative_path = String.intercalate "/" (rel ++ [name])
          ∧ ReachesNode (FSNode.dir [("s", FSNode.symlink), ("f", FSNode.file)]) (rel ++ [name])
              FSNode.file)
    ∧ ((((["r", "d"], FSNode.dir []) : List String × FSNode) ∈
        (processEntries (searchCtxOf ["r"] none none none (some false) (fun _ _ => .ok []))
          ["r"] [] [("d", FSNode.dir [])] ⟨[], [], []⟩).queue)
      ∧ (((["r", "d"], FSNode.dir []) : List String × FSNode) ∈ (⟨[], [], []⟩ : SearchState).queue
          ∨ ∃ name es₂, (name, FSNode.dir es₂) ∈ [("d", FSNode.dir [])]
              ∧ ((["r", "d"], FSNode.dir []) : List String × FSNode)
                  = (["r"] ++ [name], FSNode.dir es₂))) :=
  ⟨⟨by decide,
    (search_files_unfollowed_types (FSNode.dir [("s", FSNode.symlink), ("f", FSNode.file)]) ["r"]
        none none none (some false) (fun _ _ => .ok [])).1 _ (by decide)⟩,
   ⟨by
      rw [show (processEntries (searchCtxOf ["r"] none none none (some false)
            (fun _ _ => .ok [])) ["r"] [] [("d", FSNode.dir [])] ⟨[], [], []⟩).queue
          = [(["r", "d"], FSNode.dir [])] from rfl]
      exact List.mem_singleton.mpr rfl,
    (search_files_unfollowed_types (FSNode.dir [("s", FSNode.symlink), ("f", FSNode.file)]) ["r"]
        none none none (some false) (fun _ _ => .ok [])).2.1
      (searchCtxOf ["r"] none none none (some false) (fun _ _ => .ok [])) ["r"] []
      [("d", FSNode.dir [])] ⟨[], [], []⟩ (["r", "d"], FSNode.dir [])
      (by
        rw [show (processEntries (searchCtxOf ["r"] none none none (some false)
              (fun _ _ => .ok [])) ["r"] [] [("d", FSNode.dir [])] ⟨[], [], []⟩).queue
            = [(["r", "d"], FSNode.dir [])] from rfl]
        exact List.mem_singleton.mpr rfl)⟩⟩

/-! ### Directory listing (`list_directory`, files.rs lines 177-302)

Path resolution is covered by `resolve_sandboxed_path`; the listing model
starts from the resolved directory.  One entry carries its unfollowed
file type, and the (shared) result of `fs::metadata` on the entry path as
an optional record (`none` when the stat failed). -/

/-- Unfollowed file type of a directory entry (`DirEntry::file_type`). -/
structure FileTypeInfo where
  is_dir : Bool
  is_file : Bool
  is_symlink : Bool
deriving DecidableEq, Repr

/-- Followed metadata of an entry path (`fs::metadata`), with the
modification time already converted to milliseconds since the epoch
(`none` when either the stat or the conversion failed). -/
structure MetaInfo where
  is_dir : Bool
  is_file : Bool
  len : Nat
  modified_millis : Option Int
deriving DecidableEq, Repr

/-- One enumerated child of the listed directory. -/
structure DirEntryInput where
  name : String
  file_type : FileTypeInfo
  meta : Option MetaInfo
deriving DecidableEq, Repr

/-- Model of the `FileListEntry` DTO (files.rs lines 31-39). -/
structure FileListEntry where
  name : String
  path : String
  is_directory : Bool
  is_file : Bool
  is_symbolic_link : Bool
  size : Option Nat
  modified_time : Option Int
deriving DecidableEq, Repr

/-- Model of the `DirectoryListResult` DTO (files.rs lines 43-47). -/
structure DirectoryListResult where
  directory : String
  path : String
  entries : List FileListEntry
deriving DecidableEq, Repr

/-- Entry loop of `list_directory` (files.rs lines 254-295): skip ignored
names, upgrade `is_directory` through the followed metadata for symlinks,
and take `size` (files only) and `modified_time` best-effort. -/
def list_entries (resolved_path : List String) (ignored_names : List String) :
    List DirEntryInput → List FileListEntry
  | [] => []
  | e :: rest =>
    if !ignored_names.isEmpty && ignored_names.contains e.name then
      list_entries resolved_path ignored_names rest
    else
      let is_directory :=
        if !e.file_type.is_dir && e.file_type.is_symlink then
          match e.meta with
          | some m => m.is_dir
          | none => e.file_type.is_dir
        else e.file_type.is_dir
      { name := e.name,
        path := absPathString (resolved_path ++ [e.name]),
        is_directory := is_directory,
        is_file := e.file_type.is_file,
        is_symbolic_link := e.file_type.is_symlink,
        size := (e.meta.filter (fun m => m.is_file)).map (fun m => m.len),
        modified_time := e.meta.bind (fun m => m.modified_millis) }
        :: list_entries resolved_path ignored_names rest

/-- Model of `list_directory` (files.rs lines 177-302) after resolution:
check the resolved path is a directory, re-check workspace containment,
resolve the ignored-name set fail-open through the `check_ignore`
collaborator (`git check-ignore` behind `spawn_blocking`), then build the
listing.  Errors carry the user-facing message of the source. -/
def list_directory (resolved_path : List String) (dir_is_dir : Bool)
    (workspace_roots : List (List String)) (entries : List DirEntryInput)
    (respect_gitignore : Option Bool)
    (check_ignore : List String → Except String (List String)) :
    Except String DirectoryListResult :=
  if !dir_is_dir then
    .error FsCommandError.notDirectory.to_list_message
  else if !workspace_roots.isEmpty
      && !(workspace_roots.any (fun root => root.isPrefixOf resolved_path)) then
    .error FsCommandError.outsideWorkspace.to_list_message
  else
    let ignored_names : List String :=
      if respect_gitignore.getD false then
        let names := entries.map (fun e => e.name)
        if names.isEmpty then []
        else
          match check_ignore names with
          | .ok l => l
          | .error _ => []
      else []
    .ok { directory := absPathString resolved_path,
          path := absPathString resolved_path,
          entries := list_entries resolved_path ignored_names entries }

/-! ### Claim C9 -/

/-- C9: when gitignore filtering is requested and the ignore collaborator
fails on every call (for any reason, including the git binary being
absent), the listing is exactly the one produced by a collaborator that
reports no ignored entries — the ignored-set is treated as empty, and
whenever the directory checks pass the listing still succeeds. -/
theorem list_directory_fail_open (resolved_path : List String) (dir_is_dir : Bool)
    (workspace_roots : List (List String)) (entries : List DirEntryInput)
    (bad good : List String → Except String (List String))
    (hbad : ∀ names, ∃ e, bad names = .error e)
    (hgood : ∀ names, good names = .ok []) :
    list_directory resolved_path dir_is_dir workspace_roots entries (some true) bad
      = list_directory resolved_path dir_is_dir workspace_roots entries (some true) good
    ∧ (dir_is_dir = true →
        (workspace_roots.isEmpty
          || workspace_roots.any (fun root => root.isPrefixOf resolved_path)) = true →
        ∃ r, list_directory resolved_path dir_is_dir workspace_roots entries (some true) bad
          = .ok r) := by
  rcases hbad (entries.map (fun e => e.name)) with ⟨e, he⟩
  constructor
  · simp only [list_directory, he, hgood]
  · intro hdir hroot
    have hcond : (!(workspace_roots.isEmpty)
        && !(workspace_roots.any (fun root => root.isPrefixOf resolved_path))) = false := by
      rw [← Bool.not_or, hroot]
      rfl
    simp only [list_directory, hdir, hcond, he]
    exact ⟨_, rfl⟩

/-- Closed instantiation of `list_directory_fail_open`: a one-entry
directory listed with an always-failing ignore collaborator. -/
theorem list_directory_fail_open_witness :
    (∀ names : List String,
      ∃ e, (fun _ : List String => (.error "git failed" : Except String (List String))) names
        = .error e)
    ∧ (∀ names : List String,
      (fun _ : List String => (.ok [] : Except String (List String))) names = .ok [])
    ∧ list_directory ["w", "d"] true [["w"]]
        [{ name := "a", file_type := { is_dir := false, is_file := true, is_symlink := false },
           meta := some { is_dir := false, is_file := true, len := 3,
                          modified_millis := some 5 } }]
        (some true) (fun _ => .error "git failed")
      = list_directory ["w", "d"] true [["w"]]
        [{ name := "a", file_type := { is_dir := false, is_file := true, is_symlink := false },
           meta := some { is_dir := false, is_file := true, len := 3,
                          modified_millis := some 5 } }]
        (some true) (fun _ => .ok [])
    ∧ ∃ r, list_directory ["w", "d"] true [["w"]]
        [{ name := "a", file_type := { is_dir := false, is_file := true, is_symlink := false },
           meta := some { is_dir := false, is_file := true, len := 3,
                          modified_millis := some 5 } }]
        (some true) (fun _ => .error "git failed") = .ok r :=
  ⟨fun _ => ⟨"git failed", rfl⟩, fun _ => rfl,
   (list_directory_fail_open ["w", "d"] true [["w"]]
      [{ name := "a", file_type := { is_dir := false, is_file := true, is_symlink := false },
         meta := some { is_dir := false, is_file := true, len := 3,
                        modified_millis := some 5 } }]
      (fun _ => .error "git failed") (fun _ => .ok [])
      (fun _ => ⟨"git failed", rfl⟩) (fun _ => rfl)).1,
   (list_directory_fail_open ["w", "d"] true [["w"]]
      [{ name := "a", file_type := { is_dir := false, is_file := true, is_symlink := false },
         meta := some { is_dir := false, is_file := true, len := 3,
                        modified_millis := some 5 } }]
      (fun _ => .error "git failed") (fun _ => .ok [])
      (fun _ => ⟨"git failed", rfl⟩) (fun _ => rfl)).2 rfl (by decide)⟩

end OpenChamber
